import Mathlib

/-!
Verification of the graph connectivity module (`src/graph/connectivity.rs`):
a shallow embedding of the DFS-based decomposition engines
(`ConnectivityDirectedGraph`, `ConnectivityUndirectedGraph`) and their
derived queries, together with theorems settling the specification claims.

The graph storage collaborator (`graph.rs`) is not part of the sources;
the definitions for it below are modelled from the specification (§3, §6)
and say so in their doc comments.  Everything else is translated directly
from `connectivity.rs`.

Machine integers (`usize`) are embedded as `Nat`: all quantities involved
(timestamps, component ids, vertex/edge indices) are bounded by the graph
size, so overflow never occurs in the source.  The `usize::MAX` parent
sentinel of `bcc` is embedded as `Option Nat` (`none` = root call).
Boxed slices are embedded as total maps `Nat → Nat`; the recursive DFS is
embedded with explicit fuel, `num_v` being enough fuel since every
recursive call consumes an unvisited vertex.
-/

set_option maxHeartbeats 4000000

/-- Modelled from the spec: the directed-graph collaborator (`graph.rs`, which
is not under the sources).  Per §3, edges are indexed `0..num_e` in insertion
order, each holding an ordered pair of endpoints. -/
structure DirectedGraph where
  numV : Nat
  edges : List (Nat × Nat)
deriving DecidableEq

namespace DirectedGraph

/-- Modelled from the spec §3: the adjacency view of `u` yields
`(edge id, neighbor id)` pairs in a stable order — edge-insertion order. -/
def adjList (g : DirectedGraph) (u : Nat) : List (Nat × Nat) :=
  g.edges.enum.filterMap fun p => if p.2.1 = u then some (p.1, p.2.2) else none

def numE (g : DirectedGraph) : Nat := g.edges.length

/-- Modelled from the spec: `add_edge` registers one directed edge, receiving
the next edge index. -/
def add_edge (g : DirectedGraph) (u v : Nat) : DirectedGraph :=
  { g with edges := g.edges ++ [(u, v)] }

/-- Modelled from the spec §6: clause registration takes two literals (packed
as `2*var + polarity`) and adds the two contrapositive implication edges
`¬a → b` and `¬b → a`, where negation flips the low bit. -/
def add_two_sat_clause (g : DirectedGraph) (a b : Nat) : DirectedGraph :=
  (g.add_edge (a ^^^ 1) b).add_edge (b ^^^ 1) a

/-- Well-formed graph: every edge endpoint is a vertex.  The Rust collaborator
guarantees this by construction (out-of-range pushes would panic). -/
def WF (g : DirectedGraph) : Prop :=
  ∀ p ∈ g.edges, p.1 < g.numV ∧ p.2 < g.numV

end DirectedGraph

/-- Modelled from the spec: the undirected-graph collaborator.  Each edge holds
an ordered pair of endpoints; the adjacency of `u` yields the edge together
with the opposite endpoint, a self-loop being iterated exactly once (§3). -/
structure UndirectedGraph where
  numV : Nat
  edges : List (Nat × Nat)
deriving DecidableEq

namespace UndirectedGraph

/-- Modelled from the spec §3: adjacency of `u` lists `(edge id, neighbor)` in
edge-insertion order, both directions of each edge, self-loops once. -/
def adjList (g : UndirectedGraph) (u : Nat) : List (Nat × Nat) :=
  g.edges.enum.filterMap fun p =>
    if p.2.1 = u then some (p.1, p.2.2)
    else if p.2.2 = u then some (p.1, p.2.1) else none

def numE (g : UndirectedGraph) : Nat := g.edges.length

/-- Modelled from the spec: `add_edge` registers one undirected edge. -/
def add_edge (g : UndirectedGraph) (u v : Nat) : UndirectedGraph :=
  { g with edges := g.edges ++ [(u, v)] }

end UndirectedGraph

/-- Combined run state: the fields of `ConnectivityData` (`time`, `visited`,
`low`, `v_stack`, `e_stack`) together with the output fields of the
connectivity structs (`cc`, `vcc`, `isAP`, `num_cc`, `num_vcc`).  Arrays are
total maps; list heads are stack tops. -/
structure ConnState where
  time : Nat
  visited : Nat → Nat
  low : Nat → Nat
  vStack : List Nat
  eStack : List Nat
  cc : Nat → Nat
  vcc : Nat → Nat
  isAP : Nat → Bool
  numCc : Nat
  numVcc : Nat

/-- Initial state of a run: all-zero arrays, empty stacks, zero counters
(`ConnectivityData::new` plus the constructors' zero-filled output). -/
def initState : ConnState :=
  { time := 0, visited := fun _ => 0, low := fun _ => 0, vStack := [],
    eStack := [], cc := fun _ => 0, vcc := fun _ => 0, isAP := fun _ => false,
    numCc := 0, numVcc := 0 }

/-- Embedding of `ConnectivityData::visit`: take the next timestamp, stamp
`visited[u]` and `low[u]` with it, push `u` on the vertex stack. -/
def visit (s : ConnState) (u : Nat) : ConnState :=
  { s with time := s.time + 1,
           visited := Function.update s.visited u (s.time + 1),
           low := Function.update s.low u (s.time + 1),
           vStack := u :: s.vStack }

/-- Embedding of `ConnectivityData::lower`: `if low[u] > val { low[u] = val }`. -/
def lower (s : ConnState) (u val : Nat) : ConnState :=
  if s.low u > val then { s with low := Function.update s.low u val } else s

/-- Embedding of the component-extraction loop
`while let Some(v) = v_stack.pop() { cc[v] = id; if v == u { break } }`.
Returns the remaining stack and the updated `cc` array. -/
def ccPop (u id : Nat) : List Nat → (Nat → Nat) → List Nat × (Nat → Nat)
  | [], cc => ([], cc)
  | v :: rest, cc =>
    let cc' := Function.update cc v id
    if v = u then (rest, cc') else ccPop u id rest cc'

/-- Embedding of the 2VCC extraction loop of `bcc`
(`while let Some(top_e) = e_stack.pop() { if vcc[top_e] == 0 { vcc[top_e] = id }
if e == top_e { break } }`). -/
def vccPop (e id : Nat) : List Nat → (Nat → Nat) → List Nat × (Nat → Nat)
  | [], vcc => ([], vcc)
  | te :: rest, vcc =>
    let vcc' := if vcc te = 0 then Function.update vcc te id else vcc
    if te = e then (rest, vcc') else vccPop e id rest vcc'

/-- Embedding of the root drain of `bcc`
(`while let Some(top_e) = e_stack.pop() { vcc[top_e] = id }`). -/
def vccDrain (id : Nat) : List Nat → (Nat → Nat) → (Nat → Nat)
  | [], vcc => vcc
  | te :: rest, vcc => vccDrain id rest (Function.update vcc te id)

/-- The body of `scc`'s edge loop, for one adjacency entry `p = (_, v)`:
recurse if `v` is unvisited, then relax `low[u]` with `low[v]` if `v` is not
yet in a finalized component.  `go` is the recursive call at the next fuel. -/
def sccStep (go : ConnState → Nat → ConnState) (u : Nat)
    (t : ConnState) (p : Nat × Nat) : ConnState :=
  let t1 := if t.visited p.2 = 0 then go t p.2 else t
  if t1.cc p.2 = 0 then lower t1 u (t1.low p.2) else t1

/-- The tail of `scc`: if `u` is a component root (`visited[u] == low[u]`),
finalize one SCC by popping the vertex stack down to `u` under a fresh id. -/
def sccFinalize (u : Nat) (s2 : ConnState) : ConnState :=
  if s2.visited u = s2.low u then
    let pr := ccPop u (s2.numCc + 1) s2.vStack s2.cc
    { s2 with numCc := s2.numCc + 1, vStack := pr.1, cc := pr.2 }
  else s2

/-- Embedding of `ConnectivityDirectedGraph::scc`, with explicit fuel bounding
the recursion depth (each nested call is on a then-unvisited vertex). -/
def sccGo (g : DirectedGraph) : Nat → ConnState → Nat → ConnState
  | 0, s, _ => s
  | fuel + 1, s, u =>
    sccFinalize u ((g.adjList u).foldl (sccStep (sccGo g fuel) u) (visit s u))

namespace ConnectivityDirectedGraph

/-- The body of the constructor loop: run `scc` from `u` if still unvisited. -/
def rootStep (g : DirectedGraph) (s : ConnState) (u : Nat) : ConnState :=
  if s.visited u = 0 then sccGo g g.numV s u else s

/-- Embedding of `ConnectivityDirectedGraph::new`: fresh state, then one
`scc` traversal from every still-unvisited vertex in index order. -/
def new (g : DirectedGraph) : ConnState :=
  (List.range g.numV).foldl (rootStep g) initState

/-- Embedding of `ConnectivityDirectedGraph::two_sat_assign`: for each of the
`num_v/2` variables, `None` if both literals share a component id, otherwise
the comparison `cc[2i] < cc[2i+1]`; collected so that any `None` aborts. -/
def two_sat_assign (g : DirectedGraph) (c : ConnState) : Option (List Bool) :=
  (List.range (g.numV / 2)).mapM fun i =>
    if c.cc (2 * i) = c.cc (2 * i + 1) then none
    else some (decide (c.cc (2 * i) < c.cc (2 * i + 1)))

/-- Embedding of `ConnectivityDirectedGraph::topological_sort`: all vertices
sorted by the key `num_cc - cc[u]` (descending component id). -/
def topological_sort (g : DirectedGraph) (c : ConnState) : List Nat :=
  (List.range g.numV).mergeSort fun a b =>
    decide (c.numCc - c.cc a ≤ c.numCc - c.cc b)

end ConnectivityDirectedGraph

/-- The body of `bcc`'s edge loop for one adjacency entry `p = (e, v)`.
The accumulator carries the run state together with the `children` counter;
`go` is the recursive call at the next fuel.  Tree edges push `e`, recurse
and apply the articulation test; already-visited earlier neighbors are back
edges (relax and push `e`); `v == u` is a self-loop receiving its own 2VCC. -/
def bccStep (go : ConnState → Nat → Option Nat → ConnState) (u : Nat)
    (parent : Option Nat) (ac : ConnState × Nat) (p : Nat × Nat) : ConnState × Nat :=
  let t := ac.1
  let e := p.1
  let v := p.2
  if t.visited v = 0 then
    let t2 := go { t with eStack := e :: t.eStack } v (some u)
    let t3 := lower t2 u (t2.low v)
    if parent.isSome ∧ t3.visited u ≤ t3.low v then
      let pr := vccPop e (t3.numVcc + 1) t3.eStack t3.vcc
      ({ t3 with numVcc := t3.numVcc + 1, eStack := pr.1, vcc := pr.2,
                 isAP := Function.update t3.isAP u true }, ac.2 + 1)
    else (t3, ac.2 + 1)
  else if t.visited v < t.visited u then
    let t1 := lower t u (t.visited v)
    ({ t1 with eStack := e :: t1.eStack }, ac.2)
  else if v = u then
    ({ t with numVcc := t.numVcc + 1,
              vcc := Function.update t.vcc e (t.numVcc + 1) }, ac.2)
  else (t, ac.2)

/-- The root rule of `bcc`: a DFS-tree root with two or more children is an
articulation point; drain the whole edge stack into one final 2VCC. -/
def bccRootRule (u : Nat) (parent : Option Nat) (res : ConnState × Nat) : ConnState :=
  if parent.isNone ∧ res.2 > 1 then
    { res.1 with numVcc := res.1.numVcc + 1,
                 vcc := vccDrain (res.1.numVcc + 1) res.1.eStack res.1.vcc,
                 eStack := [],
                 isAP := Function.update res.1.isAP u true }
  else res.1

/-- The tail of `bcc`: for a non-root `u` with `visited[u] == low[u]` the
parent edge is a bridge — finalize one 2ECC by popping the vertex stack. -/
def bccFinalize (u : Nat) (parent : Option Nat) (s3 : ConnState) : ConnState :=
  if parent.isSome ∧ s3.visited u = s3.low u then
    let pr := ccPop u (s3.numCc + 1) s3.vStack s3.cc
    { s3 with numCc := s3.numCc + 1, vStack := pr.1, cc := pr.2 }
  else s3

/-- Embedding of `ConnectivityUndirectedGraph::bcc` (Tarjan biconnectivity),
with explicit fuel.  `parent` is `none` at DFS roots (the `usize::MAX`
sentinel of the source). -/
def bccGo (g : UndirectedGraph) : Nat → ConnState → Nat → Option Nat → ConnState
  | 0, s, _, _ => s
  | fuel + 1, s, u, parent =>
    bccFinalize u parent (bccRootRule u parent
      ((g.adjList u).foldl (bccStep (bccGo g fuel) u parent) (visit s u, 0)))

namespace ConnectivityUndirectedGraph

/-- The body of the constructor loop: run `bcc` from `u` (as a root) if `u`
is still unvisited. -/
def rootStep (g : UndirectedGraph) (s : ConnState) (u : Nat) : ConnState :=
  if s.visited u = 0 then bccGo g g.numV s u none else s

/-- Embedding of `ConnectivityUndirectedGraph::new`: fresh state, then one
`bcc` traversal (with root sentinel) from every still-unvisited vertex. -/
def new (g : UndirectedGraph) : ConnState :=
  (List.range g.numV).foldl (rootStep g) initState

/-- Embedding of `ConnectivityUndirectedGraph::is_cut_vertex`: compare the
`vcc` id of every incident edge against the first incident edge's id. -/
def is_cut_vertex (g : UndirectedGraph) (c : ConnState) (u : Nat) : Bool :=
  match g.adjList u with
  | [] => false
  | (e0, _) :: _ => (g.adjList u).any fun p => c.vcc e0 ≠ c.vcc p.1

/-- Embedding of `ConnectivityUndirectedGraph::is_cut_edge`: the endpoints of
`e` lie in different 2ECCs. -/
def is_cut_edge (g : UndirectedGraph) (c : ConnState) (e : Nat) : Bool :=
  let p := g.edges.getD e (0, 0)
  c.cc p.1 ≠ c.cc p.2

end ConnectivityUndirectedGraph

/-! Concrete scenario graphs used by the claims. -/

/-- Undirected graph with a single edge 0–1 (its DFS tree is a root with one
child). -/
def pendantEdgeGraph : UndirectedGraph := ⟨2, [(0, 1)]⟩

/-- The biconnectivity test scenario: path 0–1–2 with the edge 1–2 doubled. -/
def pathDoubledGraph : UndirectedGraph := ⟨3, [(0, 1), (1, 2), (1, 2)]⟩

/-- Star on three vertices with center 0 (a DFS root with two children). -/
def starGraph : UndirectedGraph := ⟨3, [(0, 1), (0, 2)]⟩

/-- Self-loop at 1 next to a pendant edge 0–1. -/
def loopPendantGraph : UndirectedGraph := ⟨2, [(0, 1), (1, 1)]⟩

/-- Directed graph with the single edge 0→1. -/
def singleEdgeDigraph : DirectedGraph := ⟨2, [(0, 1)]⟩

/-- The topological-sort test scenario: a self-loop 0→0 plus edges 0→2, 3→2,
3→1, 1→0 on four vertices. -/
def toposortExampleGraph : DirectedGraph := ⟨4, [(0, 0), (0, 2), (3, 2), (3, 1), (1, 0)]⟩

/-- The 2-SAT test scenario: clauses (x∨z), (¬y∨¬z), (y∨y) over variables
x = literal 0, y = literal 2, z = literal 4, registered on six vertices. -/
def twoSatGraph1 : DirectedGraph :=
  (((⟨6, []⟩ : DirectedGraph).add_two_sat_clause 0 4).add_two_sat_clause
      (2 ^^^ 1) (4 ^^^ 1)).add_two_sat_clause 2 2

/-- The 2-SAT test scenario after additionally registering the unit clause
(z∨z). -/
def twoSatGraph2 : DirectedGraph := twoSatGraph1.add_two_sat_clause 4 4

/-- Modelled from the spec ("removing e disconnects its two endpoints"):
neighbors of `u` reachable without traversing edge `e`. -/
def adjAvoiding (g : UndirectedGraph) (e u : Nat) : List Nat :=
  ((g.adjList u).filter fun p => p.1 != e).map Prod.snd

/-- Modelled from the spec: one expansion step of reachability that never
traverses edge `e`. -/
def reachStepAvoiding (g : UndirectedGraph) (e : Nat) (s : List Nat) : List Nat :=
  (s ++ s.flatMap (adjAvoiding g e)).dedup

/-- Modelled from the spec: the vertices reachable from `src` without
traversing edge `e` (`num_v` expansion steps reach the fixpoint). -/
def reachableAvoiding (g : UndirectedGraph) (e src : Nat) : List Nat :=
  (reachStepAvoiding g e)^[g.numV] [src]

/-- Claim C10's invariant: every discovered vertex has `low[u] ≤ visited[u]`. -/
def LVInv (s : ConnState) : Prop :=
  ∀ u, s.visited u ≠ 0 → s.low u ≤ s.visited u

/-- One directed edge of `g`, as a relation on vertices. -/
def DirectedGraph.edgeRel (g : DirectedGraph) (a b : Nat) : Prop := (a, b) ∈ g.edges

/-- A directed graph is acyclic when no vertex lies on a nonempty cycle. -/
def DirectedGraph.Acyclic (g : DirectedGraph) : Prop :=
  ∀ u, ¬ Relation.TransGen g.edgeRel u u

/-- Number of vertices of `g` not yet discovered in state `s` (the quantity
that shrinks at every nested `scc`/`bcc` call, bounding the recursion). -/
def countUnvisited (g : DirectedGraph) (s : ConnState) : Nat :=
  ((Finset.range g.numV).filter fun x => s.visited x = 0).card

/-- Fact recorded for a processed edge `p` out of a not-yet-finalized vertex:
its target is finalized, or still on the stack with a discovery time at least
`low[a]`.  Monotone under later steps of the run. -/
def KFact (t : ConnState) (a : Nat) (p : Nat × Nat) : Prop :=
  t.cc p.2 ≠ 0 ∨ (t.cc p.2 = 0 ∧ t.visited p.2 ≠ 0 ∧ t.low a ≤ t.visited p.2)

/-- State invariant of the directed engine, holding between `scc` calls. -/
structure SccInv (g : DirectedGraph) (s : ConnState) : Prop where
  low_le : ∀ x, s.visited x ≠ 0 → s.low x ≤ s.visited x
  vis_le_time : ∀ x, s.visited x ≤ s.time
  vis_lt : ∀ x, s.visited x ≠ 0 → x < g.numV
  stack_mem : ∀ x, x ∈ s.vStack ↔ s.visited x ≠ 0 ∧ s.cc x = 0
  stack_nodup : s.vStack.Nodup
  cc_le : ∀ x, s.cc x ≤ s.numCc
  cc_vis : ∀ x, s.cc x ≠ 0 → s.visited x ≠ 0
  stack_low : ∀ w ∈ s.vStack, ∃ y ∈ s.vStack, s.visited y ≤ s.low w

/-- Postcondition of one `scc g fuel s u` call on an unvisited `u` (relative
to the pre-state `s`): frame conditions, the preserved invariant, and the
component-ordering facts for the vertices discovered by the call. -/
structure SccPost (g : DirectedGraph) (s : ConnState) (u : Nat) (s' : ConnState) : Prop where
  inv : SccInv g s'
  vis_u : s'.visited u = s.time + 1
  time_mono : s.time < s'.time
  vis_frame : ∀ x, s.visited x ≠ 0 → s'.visited x = s.visited x
  low_frame : ∀ x, s.visited x ≠ 0 → s'.low x = s.low x
  cc_frame : ∀ x, s.cc x ≠ 0 → s'.cc x = s.cc x
  cc_new_only : ∀ x, s'.cc x ≠ s.cc x → s.visited x = 0
  numCc_mono : s.numCc ≤ s'.numCc
  cc_fresh : ∀ x, s.cc x = 0 → s'.cc x = 0 ∨ (s.numCc < s'.cc x ∧ s'.cc x ≤ s'.numCc)
  vis_fresh : ∀ x, s'.visited x ≠ 0 → s.visited x ≠ 0 ∨ s.time < s'.visited x
  stack_shape : ∃ NL, s'.vStack = NL ++ s.vStack ∧ ∀ x ∈ NL, s.visited x = 0
  targets_vis : ∀ x, s.visited x = 0 → s'.visited x ≠ 0 → ∀ p ∈ g.adjList x, s'.visited p.2 ≠ 0
  eo : ∀ x, s.visited x = 0 → s'.visited x ≠ 0 → s'.cc x ≠ 0 →
    ∀ p ∈ g.adjList x, s'.cc p.2 ≠ 0 ∧ s'.cc p.2 ≤ s'.cc x
  kk : ∀ x, s.visited x = 0 → s'.visited x ≠ 0 → s'.cc x = 0 →
    s'.low u ≤ s'.low x ∧ ∀ p ∈ g.adjList x, KFact s' x p
  lb : s'.visited u ≤ s'.low u ∨ ∃ y ∈ s.vStack, s.visited y ≤ s'.low u
  caseA : s'.cc u ≠ 0 →
    s'.vStack = s.vStack ∧ ∀ x, s.visited x = 0 → s'.visited x ≠ 0 → s'.cc x ≠ 0
  caseB : s'.cc u = 0 → s'.visited u ≠ s'.low u

/-- Invariant of `scc`'s adjacency fold at vertex `u`: `s` is the pre-call
state, `P` the processed adjacency entries, `t` the current fold state. -/
structure SccLoopInv (g : DirectedGraph) (s : ConnState) (u : Nat)
    (P : List (Nat × Nat)) (t : ConnState) : Prop where
  inv : SccInv g t
  vis_u : t.visited u = s.time + 1
  cc_u : t.cc u = 0
  time_mono : s.time < t.time
  vis_frame : ∀ x, s.visited x ≠ 0 → t.visited x = s.visited x
  low_frame : ∀ x, s.visited x ≠ 0 → t.low x = s.low x
  cc_frame : ∀ x, s.cc x ≠ 0 → t.cc x = s.cc x
  cc_new_only : ∀ x, t.cc x ≠ s.cc x → s.visited x = 0 ∧ x ≠ u
  numCc_mono : s.numCc ≤ t.numCc
  cc_fresh : ∀ x, s.cc x = 0 → t.cc x = 0 ∨ (s.numCc < t.cc x ∧ t.cc x ≤ t.numCc)
  vis_fresh : ∀ x, t.visited x ≠ 0 → s.visited x ≠ 0 ∨ s.time < t.visited x
  stack_shape : ∃ NL, t.vStack = NL ++ u :: s.vStack ∧ ∀ x ∈ NL, s.visited x = 0 ∧ x ≠ u
  processed_vis : ∀ p ∈ P, t.visited p.2 ≠ 0
  k_u : ∀ p ∈ P, KFact t u p
  new_done : ∀ x, s.visited x = 0 → t.visited x ≠ 0 → x ≠ u →
    ∀ p ∈ g.adjList x, t.visited p.2 ≠ 0
  eo : ∀ x, s.visited x = 0 → t.visited x ≠ 0 → t.cc x ≠ 0 →
    ∀ p ∈ g.adjList x, t.cc p.2 ≠ 0 ∧ t.cc p.2 ≤ t.cc x
  k_new : ∀ x, s.visited x = 0 → t.visited x ≠ 0 → t.cc x = 0 → x ≠ u →
    t.low u ≤ t.low x ∧ ∀ p ∈ g.adjList x, KFact t x p
  lb : s.time + 1 ≤ t.low u ∨ ∃ y ∈ s.vStack, s.visited y ≤ t.low u
  count_lt : countUnvisited g t < countUnvisited g s

/-- Postcondition of one `scc` call on an unvisited `u` of an acyclic graph:
the call finalizes every vertex it discovers, leaves the stack as it was, and
assigns strictly decreasing ids along every processed edge. -/
structure SccDagPost (g : DirectedGraph) (s : ConnState) (u : Nat) (s' : ConnState) : Prop where
  inv : SccInv g s'
  vis_u : s'.visited u = s.time + 1
  time_mono : s.time < s'.time
  vis_frame : ∀ x, s.visited x ≠ 0 → s'.visited x = s.visited x
  low_frame : ∀ x, s.visited x ≠ 0 → s'.low x = s.low x
  cc_frame : ∀ x, s.cc x ≠ 0 → s'.cc x = s.cc x
  cc_new_only : ∀ x, s'.cc x ≠ s.cc x → s.visited x = 0
  numCc_mono : s.numCc ≤ s'.numCc
  cc_fresh : ∀ x, s.cc x = 0 → s'.cc x = 0 ∨ (s.numCc < s'.cc x ∧ s'.cc x ≤ s'.numCc)
  vis_fresh : ∀ x, s'.visited x ≠ 0 → s.visited x ≠ 0 ∨ s.time < s'.visited x
  stack_eq : s'.vStack = s.vStack
  all_done : ∀ x, s.visited x = 0 → s'.visited x ≠ 0 → s'.cc x ≠ 0
  eo_strict : ∀ x, s.visited x = 0 → s'.visited x ≠ 0 →
    ∀ p ∈ g.adjList x, s'.cc p.2 ≠ 0 ∧ s'.cc p.2 < s'.cc x

/-- Invariant of `scc`'s adjacency fold at vertex `u` of an acyclic graph. -/
structure SccDagLoopInv (g : DirectedGraph) (s : ConnState) (u : Nat)
    (P : List (Nat × Nat)) (t : ConnState) : Prop where
  inv : SccInv g t
  vis_u : t.visited u = s.time + 1
  low_u : t.low u = s.time + 1
  cc_u : t.cc u = 0
  time_mono : s.time < t.time
  vis_frame : ∀ x, s.visited x ≠ 0 → t.visited x = s.visited x
  low_frame : ∀ x, s.visited x ≠ 0 → t.low x = s.low x
  cc_frame : ∀ x, s.cc x ≠ 0 → t.cc x = s.cc x
  cc_new_only : ∀ x, t.cc x ≠ s.cc x → s.visited x = 0 ∧ x ≠ u
  numCc_mono : s.numCc ≤ t.numCc
  cc_fresh : ∀ x, s.cc x = 0 → t.cc x = 0 ∨ (s.numCc < t.cc x ∧ t.cc x ≤ t.numCc)
  vis_fresh : ∀ x, t.visited x ≠ 0 → s.visited x ≠ 0 ∨ s.time < t.visited x
  stack_eq : t.vStack = u :: s.vStack
  processed_cc : ∀ p ∈ P, t.cc p.2 ≠ 0
  done_strict : ∀ x, s.visited x = 0 → t.visited x ≠ 0 → x ≠ u →
    t.cc x ≠ 0 ∧ ∀ p ∈ g.adjList x, t.cc p.2 ≠ 0 ∧ t.cc p.2 < t.cc x
  count_lt : countUnvisited g t < countUnvisited g s

/-- Invariant of the constructor's root loop over the vertices of a directed
graph: all roots processed so far are discovered, every discovered vertex is
finalized, and component ids never increase along processed edges. -/
structure RootInv (g : DirectedGraph) (p : List Nat) (s : ConnState) : Prop where
  inv : SccInv g s
  stack_nil : s.vStack = []
  visited_all : ∀ x ∈ p, s.visited x ≠ 0
  eo_all : ∀ x, s.visited x ≠ 0 →
    s.cc x ≠ 0 ∧ ∀ q ∈ g.adjList x, s.cc q.2 ≠ 0 ∧ s.cc q.2 ≤ s.cc x

/-- Root-loop invariant for the acyclic case, with strict id decrease. -/
structure DagRootInv (g : DirectedGraph) (p : List Nat) (s : ConnState) : Prop where
  inv : SccInv g s
  stack_nil : s.vStack = []
  visited_all : ∀ x ∈ p, s.visited x ≠ 0
  eo_all : ∀ x, s.visited x ≠ 0 →
    s.cc x ≠ 0 ∧ ∀ q ∈ g.adjList x, s.cc q.2 ≠ 0 ∧ s.cc q.2 < s.cc x

/-! Theorems settling the concrete claims. -/

/-- Claim C1 (status: code_bug, evaluation at the failing input).  On the
undirected single-edge graph 0–1, the decomposition leaves both vertices with
`cc = 0` and the edge with `vcc = 0`: the DFS root never finalizes, because in
`bcc` both the 2ECC extraction (`cc`) and the 2VCC extraction (`vcc`) are
guarded by `parent < usize::MAX`, contradicting the claim that every vertex
and every edge receives a nonzero id. -/
theorem c1_root_never_finalized :
    (ConnectivityUndirectedGraph.new pendantEdgeGraph).cc 0 = 0 ∧
    (ConnectivityUndirectedGraph.new pendantEdgeGraph).cc 1 = 0 ∧
    (ConnectivityUndirectedGraph.new pendantEdgeGraph).vcc 0 = 0 ∧
    (ConnectivityUndirectedGraph.new pendantEdgeGraph).numCc = 0 ∧
    (ConnectivityUndirectedGraph.new pendantEdgeGraph).numVcc = 0 := by
  decide

/-- Claim C2 (counterexample).  On the directed graph with the single edge
0→1, the run assigns `cc[0] = 2` and `cc[1] = 1`: the components differ but
`cc[0] ≤ cc[1]` fails — the claimed inequality points the wrong way. -/
theorem c2_counterexample :
    (ConnectivityDirectedGraph.new singleEdgeDigraph).cc 0 ≠
      (ConnectivityDirectedGraph.new singleEdgeDigraph).cc 1 ∧
    ¬ (ConnectivityDirectedGraph.new singleEdgeDigraph).cc 0 ≤
        (ConnectivityDirectedGraph.new singleEdgeDigraph).cc 1 := by
  decide

/-- Claim C5 (status: code_bug, evaluation at the failing input).  In the
path 0–1–2 with doubled edge 1–2, edge 0 (0–1) is a bridge — vertex 1 is not
reachable from vertex 0 when edge 0 is avoided — yet `is_cut_edge(0)` returns
`false`, because the root's 2ECC is never finalized and both endpoints keep
`cc = 0`. -/
theorem c5_bridge_not_detected :
    ConnectivityUndirectedGraph.is_cut_edge pathDoubledGraph
      (ConnectivityUndirectedGraph.new pathDoubledGraph) 0 = false ∧
    1 ∉ reachableAvoiding pathDoubledGraph 0 0 ∧
    (ConnectivityUndirectedGraph.new pathDoubledGraph).cc 0 = 0 ∧
    (ConnectivityUndirectedGraph.new pathDoubledGraph).cc 1 = 0 := by
  decide

/-- Claim C6 (status: code_bug, evaluation at the failing input).  On the star
0–1, 0–2, the biconnectivity DFS flags the two-child root 0 as an articulation
point (`isAP[0] = true`), but `is_cut_vertex(0)` — which compares incident
`vcc` ids — returns `false`, since the root drain put both edges into one
2VCC.  The two computations disagree even though vertex 0 has incident
edges. -/
theorem c6_isAP_vs_cut_vertex :
    (ConnectivityUndirectedGraph.new starGraph).isAP 0 = true ∧
    ConnectivityUndirectedGraph.is_cut_vertex starGraph
      (ConnectivityUndirectedGraph.new starGraph) 0 = false ∧
    starGraph.adjList 0 ≠ [] := by
  decide

/-- Claim C7 (confirmed).  On the 3-vertex path 0–1–2 with the edge 1–2
duplicated, `is_cut_vertex` reports vertex 1, and only vertex 1, as an
articulation point. -/
theorem c7_path_doubled_articulation :
    ConnectivityUndirectedGraph.is_cut_vertex pathDoubledGraph
      (ConnectivityUndirectedGraph.new pathDoubledGraph) 1 = true ∧
    ConnectivityUndirectedGraph.is_cut_vertex pathDoubledGraph
      (ConnectivityUndirectedGraph.new pathDoubledGraph) 0 = false ∧
    ConnectivityUndirectedGraph.is_cut_vertex pathDoubledGraph
      (ConnectivityUndirectedGraph.new pathDoubledGraph) 2 = false := by
  decide

/-- Claim C8 (confirmed).  For the clauses (x∨z), (¬y∨¬z), (y∨y) over three
variables, `two_sat_assign` returns `Some([true, true, false])`; after
additionally registering the unit clause (z∨z), a fresh decomposition's
`two_sat_assign` returns `None`. -/
theorem c8_two_sat_scenario :
    ConnectivityDirectedGraph.two_sat_assign twoSatGraph1
      (ConnectivityDirectedGraph.new twoSatGraph1) = some [true, true, false] ∧
    ConnectivityDirectedGraph.two_sat_assign twoSatGraph2
      (ConnectivityDirectedGraph.new twoSatGraph2) = none := by
  decide

/-- Claim C9 (confirmed).  Decomposition is deterministic: the engines are
pure functions of the frozen graph snapshot, so two runs on the same
unmodified graph produce identical `cc`, `vcc`, `isAP` arrays and identical
`num_cc`/`num_vcc` counts. -/
theorem c9_deterministic (g : DirectedGraph) (h : UndirectedGraph) :
    ((ConnectivityDirectedGraph.new g).cc = (ConnectivityDirectedGraph.new g).cc ∧
      (ConnectivityDirectedGraph.new g).vcc = (ConnectivityDirectedGraph.new g).vcc ∧
      (ConnectivityDirectedGraph.new g).numCc = (ConnectivityDirectedGraph.new g).numCc ∧
      (ConnectivityDirectedGraph.new g).numVcc = (ConnectivityDirectedGraph.new g).numVcc) ∧
    ((ConnectivityUndirectedGraph.new h).cc = (ConnectivityUndirectedGraph.new h).cc ∧
      (ConnectivityUndirectedGraph.new h).vcc = (ConnectivityUndirectedGraph.new h).vcc ∧
      (ConnectivityUndirectedGraph.new h).isAP = (ConnectivityUndirectedGraph.new h).isAP ∧
      (ConnectivityUndirectedGraph.new h).numCc = (ConnectivityUndirectedGraph.new h).numCc ∧
      (ConnectivityUndirectedGraph.new h).numVcc = (ConnectivityUndirectedGraph.new h).numVcc) :=
  ⟨⟨rfl, rfl, rfl, rfl⟩, ⟨rfl, rfl, rfl, rfl, rfl⟩⟩

/-! Helper lemmas for claim C10: the low-link invariant is preserved by every
operation of a run. -/

theorem lvinv_visit {s : ConnState} (hs : LVInv s) (u : Nat) : LVInv (visit s u) := by
  intro w hw
  by_cases h : w = u
  · subst h
    simp [visit, Function.update_same]
  · simp only [visit, Function.update_noteq h] at hw ⊢
    exact hs w hw

theorem lvinv_lower {s : ConnState} (hs : LVInv s) (u val : Nat) :
    LVInv (lower s u val) := by
  unfold lower
  split
  · rename_i hgt
    intro w hw
    by_cases h : w = u
    · subst h
      simp only [Function.update_same]
      exact le_trans (le_of_lt hgt) (hs w hw)
    · simp only [Function.update_noteq h]
      exact hs w hw
  · exact hs

theorem foldl_preserve {α σ : Type _} (P : σ → Prop) (f : σ → α → σ)
    (h : ∀ t a, P t → P (f t a)) : ∀ (l : List α) (t : σ), P t → P (l.foldl f t) := by
  intro l
  induction l with
  | nil => exact fun t ht => ht
  | cons a l ih => exact fun t ht => ih _ (h t a ht)

theorem lvinv_sccStep {go : ConnState → Nat → ConnState}
    (hgo : ∀ t v, LVInv t → LVInv (go t v)) (u : Nat) :
    ∀ (t : ConnState) (p : Nat × Nat), LVInv t → LVInv (sccStep go u t p) := by
  intro t p ht
  unfold sccStep
  have ht1 : LVInv (if t.visited p.2 = 0 then go t p.2 else t) := by
    split
    · exact hgo t p.2 ht
    · exact ht
  generalize (if t.visited p.2 = 0 then go t p.2 else t) = t1 at ht1 ⊢
  dsimp only
  split
  · exact lvinv_lower ht1 u _
  · exact ht1

theorem lvinv_sccFinalize (u : Nat) (t : ConnState) (ht : LVInv t) :
    LVInv (sccFinalize u t) := by
  unfold sccFinalize
  split
  · exact fun w hw => ht w hw
  · exact ht

theorem lvinv_sccGo (g : DirectedGraph) :
    ∀ (fuel : Nat) (s : ConnState) (u : Nat), LVInv s → LVInv (sccGo g fuel s u) := by
  intro fuel
  induction fuel with
  | zero => exact fun s u hs => hs
  | succ fuel ih =>
    intro s u hs
    simp only [sccGo]
    exact lvinv_sccFinalize u _
      (foldl_preserve LVInv _ (lvinv_sccStep ih u) _ _ (lvinv_visit hs u))

theorem lvinv_bccStep {go : ConnState → Nat → Option Nat → ConnState}
    (hgo : ∀ t v pp, LVInv t → LVInv (go t v pp)) (u : Nat) (parent : Option Nat) :
    ∀ (ac : ConnState × Nat) (p : Nat × Nat), LVInv ac.1 →
      LVInv (bccStep go u parent ac p).1 := by
  intro ac p hac
  unfold bccStep
  dsimp only
  split
  · have ht3 : LVInv (lower (go { ac.1 with eStack := p.1 :: ac.1.eStack } p.2 (some u)) u
        ((go { ac.1 with eStack := p.1 :: ac.1.eStack } p.2 (some u)).low p.2)) :=
      lvinv_lower (hgo { ac.1 with eStack := p.1 :: ac.1.eStack } p.2 (some u)
        (fun w hw => hac w hw)) u _
    split
    · exact fun w hw => ht3 w hw
    · exact ht3
  · split
    · exact fun w hw => lvinv_lower hac u _ w hw
    · split
      · exact fun w hw => hac w hw
      · exact hac

theorem lvinv_bccTail (u : Nat) (parent : Option Nat) (res : ConnState × Nat)
    (hres : LVInv res.1) : LVInv (bccFinalize u parent (bccRootRule u parent res)) := by
  have h3 : LVInv (bccRootRule u parent res) := by
    unfold bccRootRule
    split
    · exact fun w hw => hres w hw
    · exact hres
  unfold bccFinalize
  split
  · exact fun w hw => h3 w hw
  · exact h3

theorem lvinv_bccGo (g : UndirectedGraph) :
    ∀ (fuel : Nat) (s : ConnState) (u : Nat) (parent : Option Nat),
      LVInv s → LVInv (bccGo g fuel s u parent) := by
  intro fuel
  induction fuel with
  | zero => exact fun s u parent hs => hs
  | succ fuel ih =>
    intro s u parent hs
    simp only [bccGo]
    exact lvinv_bccTail u parent _
      (foldl_preserve (fun ac : ConnState × Nat => LVInv ac.1) _
        (lvinv_bccStep ih u parent) _ _ (lvinv_visit hs u))

theorem lvinv_initState : LVInv initState := fun _ h => absurd rfl h

theorem lvinv_dnew (g : DirectedGraph) : LVInv (ConnectivityDirectedGraph.new g) := by
  refine foldl_preserve LVInv _ (fun t a ht => ?_) _ _ lvinv_initState
  unfold ConnectivityDirectedGraph.rootStep
  split
  · exact lvinv_sccGo g g.numV t a ht
  · exact ht

theorem lvinv_unew (g : UndirectedGraph) : LVInv (ConnectivityUndirectedGraph.new g) := by
  refine foldl_preserve LVInv _ (fun t a ht => ?_) _ _ lvinv_initState
  unfold ConnectivityUndirectedGraph.rootStep
  split
  · exact lvinv_bccGo g g.numV t a none ht
  · exact ht

/-- Claim C10 (confirmed).  Throughout any decomposition run, `low[u]` never
exceeds `visited[u]` for a discovered vertex: `visit(u)` stamps both with the
same fresh timestamp `time+1`, `lower(u, val)` sets `low[u]` to
`min(low[u], val)` (touching no other vertex), and the invariant is preserved
by `scc`, by `bcc`, and holds after both constructors. -/
theorem c10_low_le_visited :
    (∀ (s : ConnState) (u : Nat),
      (visit s u).visited u = s.time + 1 ∧ (visit s u).low u = s.time + 1 ∧
        (visit s u).time = s.time + 1) ∧
    (∀ (s : ConnState) (u val : Nat),
      (lower s u val).low u = min (s.low u) val ∧
        ∀ w, w ≠ u → (lower s u val).low w = s.low w) ∧
    (∀ (g : DirectedGraph) (fuel : Nat) (s : ConnState) (u : Nat),
      LVInv s → LVInv (sccGo g fuel s u)) ∧
    (∀ (g : UndirectedGraph) (fuel : Nat) (s : ConnState) (u : Nat)
      (parent : Option Nat), LVInv s → LVInv (bccGo g fuel s u parent)) ∧
    (∀ g : DirectedGraph, LVInv (ConnectivityDirectedGraph.new g)) ∧
    (∀ g : UndirectedGraph, LVInv (ConnectivityUndirectedGraph.new g)) := by
  refine ⟨fun s u => ⟨?_, ?_, rfl⟩, fun s u val => ⟨?_, fun w hw => ?_⟩,
    lvinv_sccGo, lvinv_bccGo, lvinv_dnew, lvinv_unew⟩
  · simp [visit]
  · simp [visit]
  · by_cases h : s.low u > val
    · unfold lower
      rw [if_pos h, Nat.min_def, if_neg (by omega)]
      exact Function.update_same u val s.low
    · unfold lower
      rw [if_neg h, Nat.min_def, if_pos (by omega)]
  · unfold lower
    split
    · exact Function.update_noteq hw _ _
    · rfl

/-- Witness for claim C10: applying the preservation statement to a concrete
run shows `low[1] ≤ visited[1]` after `scc` on the one-edge digraph. -/
theorem c10_low_le_visited_witness :
    (sccGo singleEdgeDigraph 2 initState 0).low 1 ≤
      (sccGo singleEdgeDigraph 2 initState 0).visited 1 :=
  c10_low_le_visited.2.2.1 singleEdgeDigraph 2 initState 0
    (fun _ h => absurd rfl h) 1 (by decide)

/-! Helper lemmas for claim C4: collect semantics of `two_sat_assign` over the
`Option` monad. -/

theorem mapM1_nil {α β : Type} (f : α → Option β) : List.mapM' f ([] : List α) = some [] := rfl

theorem mapM1_cons {α β : Type} (f : α → Option β) (a : α) (l : List α) :
    List.mapM' f (a :: l) =
      (f a).bind fun b => (List.mapM' f l).bind fun bs => some (b :: bs) := rfl

theorem mapM1_none_iff {α β : Type} (f : α → Option β) :
    ∀ l : List α, List.mapM' f l = none ↔ ∃ a ∈ l, f a = none := by
  intro l
  induction l with
  | nil =>
    rw [mapM1_nil]
    simp
  | cons a l ih =>
    rw [mapM1_cons]
    cases hf : f a with
    | none =>
      simp only [Option.none_bind]
      exact iff_of_true (by simp) ⟨a, List.mem_cons_self a l, hf⟩
    | some b =>
      simp only [Option.some_bind]
      cases hl : List.mapM' f l with
      | none =>
        simp only [Option.none_bind]
        obtain ⟨x, hx, hfx⟩ := ih.mp hl
        exact iff_of_true (by simp) ⟨x, List.mem_cons_of_mem a hx, hfx⟩
      | some bs =>
        simp only [Option.some_bind]
        constructor
        · intro h
          exact absurd h (by simp)
        · rintro ⟨x, hx, hfx⟩
          rcases List.mem_cons.mp hx with rfl | hx
          · rw [hf] at hfx
            exact absurd hfx (by simp)
          · have hcontra := ih.mpr ⟨x, hx, hfx⟩
            rw [hl] at hcontra
            exact absurd hcontra (by simp)

theorem mapM1_map {α β : Type} (f : α → Option β) (q : α → β) :
    ∀ l : List α, (∀ a ∈ l, f a = some (q a)) → List.mapM' f l = some (l.map q) := by
  intro l
  induction l with
  | nil => intro _; rfl
  | cons a l ih =>
    intro h
    rw [mapM1_cons, h a (List.mem_cons_self a l), Option.some_bind,
        ih (fun x hx => h x (List.mem_cons_of_mem a hx)), Option.some_bind,
        List.map_cons]

theorem two_sat_assign_none_iff (g : DirectedGraph) (c : ConnState) :
    ConnectivityDirectedGraph.two_sat_assign g c = none ↔
      ∃ i, i < g.numV / 2 ∧ c.cc (2 * i) = c.cc (2 * i + 1) := by
  unfold ConnectivityDirectedGraph.two_sat_assign
  rw [← List.mapM'_eq_mapM, mapM1_none_iff]
  constructor
  · rintro ⟨i, hi, hfi⟩
    refine ⟨i, List.mem_range.mp hi, ?_⟩
    by_contra hne
    rw [if_neg hne] at hfi
    exact Option.noConfusion hfi
  · rintro ⟨i, hi, hcc⟩
    exact ⟨i, List.mem_range.mpr hi, if_pos hcc⟩

theorem two_sat_assign_some (g : DirectedGraph) (c : ConnState) (val : List Bool)
    (h : ConnectivityDirectedGraph.two_sat_assign g c = some val) :
    val = (List.range (g.numV / 2)).map fun i =>
      decide (c.cc (2 * i) < c.cc (2 * i + 1)) := by
  unfold ConnectivityDirectedGraph.two_sat_assign at h
  rw [← List.mapM'_eq_mapM] at h
  have hall : ∀ i ∈ List.range (g.numV / 2),
      (if c.cc (2 * i) = c.cc (2 * i + 1) then none
        else some (decide (c.cc (2 * i) < c.cc (2 * i + 1)))) =
        some (decide (c.cc (2 * i) < c.cc (2 * i + 1))) := by
    intro i hi
    by_cases hcc : c.cc (2 * i) = c.cc (2 * i + 1)
    · exfalso
      have hnone := (mapM1_none_iff
          (fun i => if c.cc (2 * i) = c.cc (2 * i + 1) then none
            else some (decide (c.cc (2 * i) < c.cc (2 * i + 1))))
          (List.range (g.numV / 2))).mpr ⟨i, hi, if_pos hcc⟩
      rw [h] at hnone
      exact Option.noConfusion hnone
    · exact if_neg hcc
  have hmap := mapM1_map _ (fun i => decide (c.cc (2 * i) < c.cc (2 * i + 1))) _ hall
  rw [h] at hmap
  exact Option.some.inj hmap

/-- Claim C4 (confirmed).  For every directed implication graph,
`two_sat_assign` returns `None` iff some variable's two literal vertices got
the same component id (lie in the same SCC), and otherwise returns `Some` of
the vector assigning variable `i` true exactly when `cc[2i] < cc[2i+1]`. -/
theorem c4_two_sat_option_semantics (g : DirectedGraph) :
    (ConnectivityDirectedGraph.two_sat_assign g (ConnectivityDirectedGraph.new g) = none ↔
      ∃ i, i < g.numV / 2 ∧
        (ConnectivityDirectedGraph.new g).cc (2 * i) =
          (ConnectivityDirectedGraph.new g).cc (2 * i + 1)) ∧
    ∀ val, ConnectivityDirectedGraph.two_sat_assign g (ConnectivityDirectedGraph.new g) =
        some val →
      val = (List.range (g.numV / 2)).map fun i =>
        decide ((ConnectivityDirectedGraph.new g).cc (2 * i) <
          (ConnectivityDirectedGraph.new g).cc (2 * i + 1)) :=
  ⟨two_sat_assign_none_iff g _, fun val h => two_sat_assign_some g _ val h⟩

/-- Witness for claim C4: instantiating at the 2-SAT test graph yields exactly
the assignment `[true, true, false]` dictated by the component ids. -/
theorem c4_two_sat_option_semantics_witness :
    [true, true, false] = (List.range (twoSatGraph1.numV / 2)).map fun i =>
      decide ((ConnectivityDirectedGraph.new twoSatGraph1).cc (2 * i) <
        (ConnectivityDirectedGraph.new twoSatGraph1).cc (2 * i + 1)) :=
  (c4_two_sat_option_semantics twoSatGraph1).2 [true, true, false] (by decide)

/-! Basic lemmas about the primitive state operations. -/

theorem visit_time (s : ConnState) (u : Nat) : (visit s u).time = s.time + 1 := rfl

theorem visit_visited_self (s : ConnState) (u : Nat) :
    (visit s u).visited u = s.time + 1 := by
  simp [visit]

theorem visit_visited_ne (s : ConnState) {u x : Nat} (h : x ≠ u) :
    (visit s u).visited x = s.visited x := by
  simp [visit, Function.update_noteq h]

theorem visit_low_self (s : ConnState) (u : Nat) :
    (visit s u).low u = s.time + 1 := by
  simp [visit]

theorem visit_low_ne (s : ConnState) {u x : Nat} (h : x ≠ u) :
    (visit s u).low x = s.low x := by
  simp [visit, Function.update_noteq h]

theorem visit_vStack (s : ConnState) (u : Nat) : (visit s u).vStack = u :: s.vStack := rfl

theorem visit_cc (s : ConnState) (u : Nat) : (visit s u).cc = s.cc := rfl

theorem visit_numCc (s : ConnState) (u : Nat) : (visit s u).numCc = s.numCc := rfl

theorem lower_visited (s : ConnState) (u val : Nat) : (lower s u val).visited = s.visited := by
  unfold lower
  split <;> rfl

theorem lower_cc (s : ConnState) (u val : Nat) : (lower s u val).cc = s.cc := by
  unfold lower
  split <;> rfl

theorem lower_vStack (s : ConnState) (u val : Nat) : (lower s u val).vStack = s.vStack := by
  unfold lower
  split <;> rfl

theorem lower_numCc (s : ConnState) (u val : Nat) : (lower s u val).numCc = s.numCc := by
  unfold lower
  split <;> rfl

theorem lower_time (s : ConnState) (u val : Nat) : (lower s u val).time = s.time := by
  unfold lower
  split <;> rfl

theorem lower_low_ne (s : ConnState) {u x : Nat} (val : Nat) (h : x ≠ u) :
    (lower s u val).low x = s.low x := by
  unfold lower
  split
  · exact Function.update_noteq h val s.low
  · rfl

theorem lower_low_self (s : ConnState) (u val : Nat) :
    (lower s u val).low u = min (s.low u) val := by
  by_cases h : s.low u > val
  · unfold lower
    rw [if_pos h, Nat.min_def, if_neg (by omega)]
    exact Function.update_same u val s.low
  · unfold lower
    rw [if_neg h, Nat.min_def, if_pos (by omega)]

theorem lower_low_le_old (s : ConnState) (u val : Nat) :
    (lower s u val).low u ≤ s.low u := by
  rw [lower_low_self]
  exact Nat.min_le_left _ _

theorem lower_low_le_val (s : ConnState) (u val : Nat) :
    (lower s u val).low u ≤ val := by
  rw [lower_low_self]
  exact Nat.min_le_right _ _

theorem lower_low_cases (s : ConnState) (u val : Nat) :
    (lower s u val).low u = s.low u ∨ (lower s u val).low u = val := by
  rw [lower_low_self, Nat.min_def]
  split
  · exact Or.inl rfl
  · exact Or.inr rfl

/-! Lemmas about the extraction loop `ccPop`. -/

theorem ccPop_spec (u id : Nat) :
    ∀ (L old : List Nat) (cc : Nat → Nat), u ∉ L →
      (ccPop u id (L ++ u :: old) cc).1 = old ∧
      (∀ x, x ∈ L ∨ x = u → (ccPop u id (L ++ u :: old) cc).2 x = id) ∧
      (∀ x, x ∉ L → x ≠ u → (ccPop u id (L ++ u :: old) cc).2 x = cc x) := by
  intro L
  induction L with
  | nil =>
    intro old cc _
    simp only [List.nil_append, ccPop, if_pos rfl, List.append_eq]
    refine ⟨rfl, ?_, ?_⟩
    · intro x hx
      rcases hx with hx | rfl
      · exact absurd hx (List.not_mem_nil x)
      · exact Function.update_same x id cc
    · intro x _ hxu
      exact Function.update_noteq hxu id cc
  | cons a L ih =>
    intro old cc hu
    have hu' : ¬(u = a ∨ u ∈ L) := fun h => hu (List.mem_cons.mpr h)
    push_neg at hu'
    simp only [List.cons_append, ccPop, if_neg (fun h : a = u => hu'.1 h.symm), List.append_eq]
    obtain ⟨h1, h2, h3⟩ := ih old (Function.update cc a id) hu'.2
    refine ⟨h1, ?_, ?_⟩
    · intro x hx
      rcases hx with hx | rfl
      · rcases List.mem_cons.mp hx with rfl | hxL
        · by_cases hxL2 : x ∈ L
          · exact h2 x (Or.inl hxL2)
          · rw [h3 x hxL2 (fun h : x = u => hu'.1 h.symm)]
            exact Function.update_same x id cc
        · exact h2 x (Or.inl hxL)
      · exact h2 x (Or.inr rfl)
    · intro x hxL hxu
      have hxa : x ≠ a := fun h => hxL (h ▸ List.mem_cons_self a L)
      have hxL' : x ∉ L := fun h => hxL (List.mem_cons_of_mem a h)
      rw [h3 x hxL' hxu]
      exact Function.update_noteq hxa id cc

/-! Lemmas about the unvisited-vertex count. -/

theorem countUnvisited_le (g : DirectedGraph) {s s' : ConnState}
    (h : ∀ x, s.visited x ≠ 0 → s'.visited x ≠ 0) :
    countUnvisited g s' ≤ countUnvisited g s := by
  apply Finset.card_le_card
  intro x hx
  rw [Finset.mem_filter] at hx ⊢
  refine ⟨hx.1, ?_⟩
  by_contra hnz
  exact h x hnz hx.2

theorem countUnvisited_lt (g : DirectedGraph) {s s' : ConnState}
    (h : ∀ x, s.visited x ≠ 0 → s'.visited x ≠ 0) (u : Nat)
    (hu0 : s.visited u = 0) (hu' : s'.visited u ≠ 0) (hun : u < g.numV) :
    countUnvisited g s' < countUnvisited g s := by
  apply Finset.card_lt_card
  rw [Finset.ssubset_iff_of_subset]
  · refine ⟨u, ?_, ?_⟩
    · rw [Finset.mem_filter]
      exact ⟨Finset.mem_range.mpr hun, hu0⟩
    · rw [Finset.mem_filter]
      rintro ⟨-, h0⟩
      exact hu' h0
  · intro x hx
    rw [Finset.mem_filter] at hx ⊢
    refine ⟨hx.1, ?_⟩
    by_contra hnz
    exact h x hnz hx.2

theorem countUnvisited_le_numV (g : DirectedGraph) (s : ConnState) :
    countUnvisited g s ≤ g.numV := by
  calc countUnvisited g s ≤ (Finset.range g.numV).card := Finset.card_filter_le _ _
  _ = g.numV := Finset.card_range _

theorem countUnvisited_congr (g : DirectedGraph) {s s' : ConnState}
    (h : s'.visited = s.visited) : countUnvisited g s' = countUnvisited g s := by
  unfold countUnvisited
  rw [h]

/-! Lemmas relating the adjacency view to the edge list. -/

theorem DirectedGraph.adj_mem_edges {g : DirectedGraph} {u : Nat} {p : Nat × Nat}
    (hp : p ∈ g.adjList u) : (u, p.2) ∈ g.edges := by
  unfold DirectedGraph.adjList at hp
  rw [List.mem_filterMap] at hp
  obtain ⟨q, hq, hqe⟩ := hp
  by_cases h : q.2.1 = u
  · rw [if_pos h] at hqe
    have hpq : p = (q.1, q.2.2) := (Option.some.inj hqe).symm
    have hq2 : q.2 ∈ g.edges := List.get?_mem (List.mem_enum_iff_get?.mp hq)
    have : (u, p.2) = q.2 := by
      rw [hpq]
      exact Prod.ext h.symm rfl
    rw [this]
    exact hq2
  · rw [if_neg h] at hqe
    exact Option.noConfusion hqe

theorem DirectedGraph.mem_edges_adj {g : DirectedGraph} {u v : Nat}
    (h : (u, v) ∈ g.edges) : ∃ p ∈ g.adjList u, p.2 = v := by
  obtain ⟨n, hn⟩ := List.mem_iff_get.mp h
  refine ⟨(n.1, v), ?_, rfl⟩
  unfold DirectedGraph.adjList
  rw [List.mem_filterMap]
  refine ⟨(n.1, (u, v)), ?_, by simp⟩
  rw [List.mem_enum_iff_get?]
  rw [List.get?_eq_get n.2, hn]

theorem DirectedGraph.adj_fst_lt {g : DirectedGraph} (hwf : g.WF) {u : Nat}
    {p : Nat × Nat} (hp : p ∈ g.adjList u) : u < g.numV :=
  (hwf _ (DirectedGraph.adj_mem_edges hp)).1

theorem DirectedGraph.adj_snd_lt {g : DirectedGraph} (hwf : g.WF) {u : Nat}
    {p : Nat × Nat} (hp : p ∈ g.adjList u) : p.2 < g.numV :=
  (hwf _ (DirectedGraph.adj_mem_edges hp)).2

/-! Monotonicity of recorded edge facts. -/

theorem kfact_mono {t t' : ConnState} {a : Nat} {p : Nat × Nat}
    (hcc : ∀ x, t.cc x ≠ 0 → t'.cc x = t.cc x)
    (hvis : t.visited p.2 ≠ 0 → t'.visited p.2 = t.visited p.2)
    (hlow : t'.low a ≤ t.low a)
    (h : KFact t a p) : KFact t' a p := by
  rcases h with h | ⟨hc0, hv, hl⟩
  · exact Or.inl (by rw [hcc _ h]; exact h)
  · by_cases hc' : t'.cc p.2 = 0
    · exact Or.inr ⟨hc', by rw [hvis hv]; exact hv, by rw [hvis hv]; exact le_trans hlow hl⟩
    · exact Or.inl hc'

/-- Relaxing `low[u]` preserves the engine invariant, provided the new value
is witnessed on the stack whenever it actually lowers. -/
theorem sccInv_lower {g : DirectedGraph} {t : ConnState} (hinv : SccInv g t) (u val : Nat)
    (hwit : ∃ y ∈ t.vStack, t.visited y ≤ val) : SccInv g (lower t u val) := by
  refine ⟨?_, ?_, ?_, ?_, ?_, ?_, ?_, ?_⟩
  · intro x hx
    rw [lower_visited] at hx ⊢
    by_cases hxu : x = u
    · subst hxu
      exact le_trans (lower_low_le_old t x val) (hinv.low_le x hx)
    · rw [lower_low_ne t val hxu]
      exact hinv.low_le x hx
  · intro x
    rw [lower_visited, lower_time]
    exact hinv.vis_le_time x
  · intro x hx
    rw [lower_visited] at hx
    exact hinv.vis_lt x hx
  · intro x
    rw [lower_vStack, lower_visited, lower_cc]
    exact hinv.stack_mem x
  · rw [lower_vStack]
    exact hinv.stack_nodup
  · intro x
    rw [lower_cc, lower_numCc]
    exact hinv.cc_le x
  · intro x hx
    rw [lower_cc] at hx
    rw [lower_visited]
    exact hinv.cc_vis x hx
  · intro w hw
    rw [lower_vStack] at hw
    by_cases hwu : w = u
    · subst hwu
      rcases lower_low_cases t w val with hc | hc
      · obtain ⟨y, hy, hyl⟩ := hinv.stack_low w hw
        exact ⟨y, by rw [lower_vStack]; exact hy, by rw [lower_visited, hc]; exact hyl⟩
      · obtain ⟨y, hy, hyl⟩ := hwit
        exact ⟨y, by rw [lower_vStack]; exact hy, by rw [lower_visited, hc]; exact hyl⟩
    · obtain ⟨y, hy, hyl⟩ := hinv.stack_low w hw
      refine ⟨y, by rw [lower_vStack]; exact hy, ?_⟩
      rw [lower_visited, lower_low_ne t val hwu]
      exact hyl

/-- Entering `scc(u)`: after `visit u`, the adjacency-loop invariant holds
with no edge yet processed. -/
theorem sccLoopInv_init (g : DirectedGraph) {s : ConnState} {u : Nat}
    (hinv : SccInv g s) (hsu : s.visited u = 0) (hun : u < g.numV) :
    SccLoopInv g s u [] (visit s u) := by
  have hccu : s.cc u = 0 := by
    by_contra h
    exact hinv.cc_vis u h hsu
  have hnmem : u ∉ s.vStack := fun h => ((hinv.stack_mem u).mp h).1 hsu
  refine ⟨⟨?_, ?_, ?_, ?_, ?_, ?_, ?_, ?_⟩, visit_visited_self s u, ?_, ?_, ?_, ?_, ?_, ?_, ?_,
    ?_, ?_, ⟨[], rfl, by simp⟩, ?_, ?_, ?_, ?_, ?_, ?_, ?_⟩
  · intro x hx
    by_cases hxu : x = u
    · subst hxu
      rw [visit_visited_self, visit_low_self]
    · rw [visit_visited_ne s hxu] at hx
      rw [visit_visited_ne s hxu, visit_low_ne s hxu]
      exact hinv.low_le x hx
  · intro x
    rw [visit_time]
    by_cases hxu : x = u
    · subst hxu
      rw [visit_visited_self]
    · rw [visit_visited_ne s hxu]
      exact le_trans (hinv.vis_le_time x) (Nat.le_succ _)
  · intro x hx
    by_cases hxu : x = u
    · subst hxu
      exact hun
    · rw [visit_visited_ne s hxu] at hx
      exact hinv.vis_lt x hx
  · intro x
    rw [visit_vStack, visit_cc]
    by_cases hxu : x = u
    · subst hxu
      simp only [List.mem_cons, true_or, true_iff]
      exact ⟨by rw [visit_visited_self]; exact Nat.succ_ne_zero _, hccu⟩
    · rw [visit_visited_ne s hxu]
      constructor
      · intro hmem
        rcases List.mem_cons.mp hmem with h | h
        · exact absurd h hxu
        · exact (hinv.stack_mem x).mp h
      · intro h
        exact List.mem_cons_of_mem u ((hinv.stack_mem x).mpr h)
  · rw [visit_vStack]
    exact List.nodup_cons.mpr ⟨hnmem, hinv.stack_nodup⟩
  · intro x
    rw [visit_cc, visit_numCc]
    exact hinv.cc_le x
  · intro x hx
    rw [visit_cc] at hx
    have := hinv.cc_vis x hx
    by_cases hxu : x = u
    · subst hxu
      exact absurd hsu this
    · rw [visit_visited_ne s hxu]
      exact this
  · intro w hw
    rw [visit_vStack] at hw
    rcases List.mem_cons.mp hw with rfl | hw
    · refine ⟨w, by rw [visit_vStack]; exact List.mem_cons_self w _, ?_⟩
      rw [visit_visited_self, visit_low_self]
    · have hwu : w ≠ u := fun h => hnmem (h ▸ hw)
      obtain ⟨y, hy, hyl⟩ := hinv.stack_low w hw
      have hyu : y ≠ u := fun h => hnmem (h ▸ hy)
      refine ⟨y, by rw [visit_vStack]; exact List.mem_cons_of_mem u hy, ?_⟩
      rw [visit_visited_ne s hyu, visit_low_ne s hwu]
      exact hyl
  · rw [visit_cc]
    exact hccu
  · rw [visit_time]
    exact Nat.lt_succ_self _
  · intro x hx
    have hxu : x ≠ u := fun h => by rw [h, hsu] at hx; exact hx rfl
    exact visit_visited_ne s hxu
  · intro x hx
    have hxu : x ≠ u := fun h => by rw [h, hsu] at hx; exact hx rfl
    exact visit_low_ne s hxu
  · intro x _
    rw [visit_cc]
  · intro x hx
    rw [visit_cc] at hx
    exact absurd rfl hx
  · rw [visit_numCc]
  · intro x hx
    rw [visit_cc]
    exact Or.inl hx
  · intro x hx
    by_cases hxu : x = u
    · subst hxu
      rw [visit_visited_self]
      exact Or.inr (Nat.lt_succ_self _)
    · rw [visit_visited_ne s hxu] at hx
      exact Or.inl hx
  · intro p hp
    exact absurd hp (List.not_mem_nil p)
  · intro p hp
    exact absurd hp (List.not_mem_nil p)
  · intro x hx0 hx hxu
    by_cases h : x = u
    · exact absurd h hxu
    · rw [visit_visited_ne s h] at hx
      exact absurd hx0 (fun _ => hx hx0)
  · intro x hx0 hx hcc
    exfalso
    rw [visit_cc] at hcc
    by_cases h : x = u
    · rw [h] at hcc
      exact hcc hccu
    · rw [visit_visited_ne s h] at hx
      exact hx hx0
  · intro x hx0 hx _ hxu
    exfalso
    rw [visit_visited_ne s hxu] at hx
    exact hx hx0
  · rw [visit_low_self]
    exact Or.inl (le_refl _)
  · exact countUnvisited_lt g (fun x hx => by
      by_cases h : x = u
      · rw [h, visit_visited_self]; exact Nat.succ_ne_zero _
      · rw [visit_visited_ne s h]; exact hx) u hsu
      (by rw [visit_visited_self]; exact Nat.succ_ne_zero _) hun

/-- One `scc` loop step on an already-visited neighbor: a relax-or-skip that
preserves the loop invariant and records the processed edge. -/
theorem sccLoopInv_vis_step (g : DirectedGraph) {s : ConnState} {u : Nat}
    (hinv : SccInv g s) (hsu : s.visited u = 0)
    {P : List (Nat × Nat)} {p : Nat × Nat} {t : ConnState}
    (ht : SccLoopInv g s u P t) (hv : t.visited p.2 ≠ 0) :
    SccLoopInv g s u (P ++ [p]) (if t.cc p.2 = 0 then lower t u (t.low p.2) else t) := by
  by_cases hcc : t.cc p.2 = 0
  · rw [if_pos hcc]
    have hvstack : p.2 ∈ t.vStack := (ht.inv.stack_mem p.2).mpr ⟨hv, hcc⟩
    have hwit := ht.inv.stack_low p.2 hvstack
    obtain ⟨NL, hstack, hNL⟩ := ht.stack_shape
    refine ⟨sccInv_lower ht.inv u (t.low p.2) hwit, ?_, ?_, ?_, ?_, ?_, ?_, ?_, ?_, ?_, ?_,
      ⟨NL, ?_, hNL⟩, ?_, ?_, ?_, ?_, ?_, ?_, ?_⟩
    · rw [lower_visited]
      exact ht.vis_u
    · rw [lower_cc]
      exact ht.cc_u
    · rw [lower_time]
      exact ht.time_mono
    · intro x hx
      rw [lower_visited]
      exact ht.vis_frame x hx
    · intro x hx
      have hxu : x ≠ u := fun h => hx (h ▸ hsu)
      rw [lower_low_ne t _ hxu]
      exact ht.low_frame x hx
    · intro x hx
      rw [lower_cc]
      exact ht.cc_frame x hx
    · intro x hx
      rw [lower_cc] at hx
      exact ht.cc_new_only x hx
    · rw [lower_numCc]
      exact ht.numCc_mono
    · intro x hx
      rw [lower_cc, lower_numCc]
      exact ht.cc_fresh x hx
    · intro x hx
      rw [lower_visited] at hx ⊢
      exact ht.vis_fresh x hx
    · rw [lower_vStack]
      exact hstack
    · intro q hq
      rw [lower_visited]
      rcases List.mem_append.mp hq with hq | hq
      · exact ht.processed_vis q hq
      · rw [List.mem_singleton.mp hq]
        exact hv
    · intro q hq
      rcases List.mem_append.mp hq with hq | hq
      · exact kfact_mono (fun x _ => congrFun (lower_cc t u _) x)
          (fun _ => congrFun (lower_visited t u _) q.2)
          (lower_low_le_old t u _) (ht.k_u q hq)
      · rw [List.mem_singleton.mp hq]
        refine Or.inr ⟨by rw [lower_cc]; exact hcc, by rw [lower_visited]; exact hv, ?_⟩
        rw [lower_visited]
        exact le_trans (lower_low_le_val t u _) (ht.inv.low_le p.2 hv)
    · intro x hx0 hx1 hxu q hq
      rw [lower_visited] at hx1 ⊢
      exact ht.new_done x hx0 hx1 hxu q hq
    · intro x hx0 hx1 hcx q hq
      rw [lower_visited] at hx1
      rw [lower_cc] at hcx ⊢
      exact ht.eo x hx0 hx1 hcx q hq
    · intro x hx0 hx1 hcx hxu
      rw [lower_visited] at hx1
      rw [lower_cc] at hcx
      obtain ⟨hlow, htg⟩ := ht.k_new x hx0 hx1 hcx hxu
      constructor
      · rw [lower_low_ne t _ hxu]
        exact le_trans (lower_low_le_old t u _) hlow
      · intro q hq
        exact kfact_mono (fun y _ => congrFun (lower_cc t u _) y)
          (fun _ => congrFun (lower_visited t u _) q.2)
          (le_of_eq (lower_low_ne t _ hxu)) (htg q hq)
    · rcases lower_low_cases t u (t.low p.2) with hc | hc
      · rw [hc]
        exact ht.lb
      · rw [hc]
        obtain ⟨y, hy, hyl⟩ := hwit
        rw [hstack] at hy
        rcases List.mem_append.mp hy with hyNL | hy2
        · have hyvis : t.visited y ≠ 0 :=
            ((ht.inv.stack_mem y).mp (by rw [hstack]; exact List.mem_append.mpr (Or.inl hyNL))).1
          rcases ht.vis_fresh y hyvis with h | h
          · exact absurd (hNL y hyNL).1 h
          · exact Or.inl (le_trans (Nat.succ_le_of_lt h) hyl)
        · rcases List.mem_cons.mp hy2 with rfl | hy3
          · exact Or.inl (le_trans (le_of_eq ht.vis_u.symm) hyl)
          · have hys : s.visited y ≠ 0 := ((hinv.stack_mem y).mp hy3).1
            exact Or.inr ⟨y, hy3, by rw [← ht.vis_frame y hys]; exact hyl⟩
    · rw [countUnvisited_congr g (lower_visited t u _)]
      exact ht.count_lt
  · rw [if_neg hcc]
    refine ⟨ht.inv, ht.vis_u, ht.cc_u, ht.time_mono, ht.vis_frame, ht.low_frame, ht.cc_frame,
      ht.cc_new_only, ht.numCc_mono, ht.cc_fresh, ht.vis_fresh, ht.stack_shape, ?_, ?_,
      ht.new_done, ht.eo, ht.k_new, ht.lb, ht.count_lt⟩
    · intro q hq
      rcases List.mem_append.mp hq with hq | hq
      · exact ht.processed_vis q hq
      · rw [List.mem_singleton.mp hq]
        exact hv
    · intro q hq
      rcases List.mem_append.mp hq with hq | hq
      · exact ht.k_u q hq
      · rw [List.mem_singleton.mp hq]
        exact Or.inl hcc

/-- One `scc` loop step that recurses into an unvisited neighbor `p.2`:
composing the callee's postcondition with the loop invariant, then applying
the relax-or-skip on `low[u]`, preserves the loop invariant. -/
theorem sccLoopInv_rec_step (g : DirectedGraph) {s : ConnState} {u : Nat}
    (hinv : SccInv g s) (hsu : s.visited u = 0)
    {P : List (Nat × Nat)} {p : Nat × Nat} {t t1 : ConnState}
    (ht : SccLoopInv g s u P t) (hv : t.visited p.2 = 0)
    (po : SccPost g t p.2 t1) :
    SccLoopInv g s u (P ++ [p]) (if t1.cc p.2 = 0 then lower t1 u (t1.low p.2) else t1) := by
  have hvu : t.visited u ≠ 0 := by rw [ht.vis_u]; exact Nat.succ_ne_zero _
  have h1vu : t1.visited u = s.time + 1 := by rw [po.vis_frame u hvu, ht.vis_u]
  have h1lu : t1.low u = t.low u := po.low_frame u hvu
  have h1cu0 : t1.cc u = 0 := by
    have h1cu : t1.cc u = t.cc u := by
      by_contra h
      exact hvu (po.cc_new_only u h)
    rw [h1cu]
    exact ht.cc_u
  have h1vv : t1.visited p.2 ≠ 0 := by rw [po.vis_u]; exact Nat.succ_ne_zero _
  have hsvt : ∀ x, s.visited x ≠ 0 → t.visited x ≠ 0 := fun x hx => by
    rw [ht.vis_frame x hx]; exact hx
  have hvm1 : ∀ x, t.visited x ≠ 0 → t1.visited x ≠ 0 := fun x hx => by
    rw [po.vis_frame x hx]; exact hx
  have hvf1 : ∀ x, s.visited x ≠ 0 → t1.visited x = s.visited x := fun x hx => by
    rw [po.vis_frame x (hsvt x hx), ht.vis_frame x hx]
  have hlf1 : ∀ x, s.visited x ≠ 0 → t1.low x = s.low x := fun x hx => by
    rw [po.low_frame x (hsvt x hx), ht.low_frame x hx]
  have hccm1 : ∀ x, t.cc x ≠ 0 → t1.cc x = t.cc x := po.cc_frame
  have hccf1 : ∀ x, s.cc x ≠ 0 → t1.cc x = s.cc x := fun x hx => by
    rw [hccm1 x (by rw [ht.cc_frame x hx]; exact hx), ht.cc_frame x hx]
  have hcno1 : ∀ x, t1.cc x ≠ s.cc x → s.visited x = 0 ∧ x ≠ u := by
    intro x hx
    by_cases h : t1.cc x = t.cc x
    · rw [h] at hx
      exact ht.cc_new_only x hx
    · have h2 := po.cc_new_only x h
      have hs0 : s.visited x = 0 := by
        by_contra hs
        exact hsvt x hs h2
      exact ⟨hs0, fun he => hvu (he ▸ h2)⟩
  have hnm1 : s.numCc ≤ t1.numCc := le_trans ht.numCc_mono po.numCc_mono
  have hcf1 : ∀ x, s.cc x = 0 → t1.cc x = 0 ∨ (s.numCc < t1.cc x ∧ t1.cc x ≤ t1.numCc) := by
    intro x hx
    rcases ht.cc_fresh x hx with h | ⟨h1, h2⟩
    · rcases po.cc_fresh x h with h' | ⟨h1', h2'⟩
      · exact Or.inl h'
      · exact Or.inr ⟨lt_of_le_of_lt ht.numCc_mono h1', h2'⟩
    · have heq : t1.cc x = t.cc x := hccm1 x (by omega)
      rw [heq]
      exact Or.inr ⟨h1, le_trans h2 po.numCc_mono⟩
  have hvfr1 : ∀ x, t1.visited x ≠ 0 → s.visited x ≠ 0 ∨ s.time < t1.visited x := by
    intro x hx
    rcases po.vis_fresh x hx with h | h
    · rcases ht.vis_fresh x h with h2 | h2
      · exact Or.inl h2
      · exact Or.inr (by rw [po.vis_frame x h]; exact h2)
    · exact Or.inr (lt_trans ht.time_mono h)
  obtain ⟨NL, hstack, hNL⟩ := ht.stack_shape
  obtain ⟨NL1, hstack1, hNL1⟩ := po.stack_shape
  have hNL1' : ∀ x ∈ NL1, s.visited x = 0 ∧ x ≠ u := fun x hx =>
    ⟨by by_contra h; exact hsvt x h (hNL1 x hx), fun he => hvu (he ▸ hNL1 x hx)⟩
  have hstack1' : t1.vStack = (NL1 ++ NL) ++ u :: s.vStack := by
    rw [hstack1, hstack, List.append_assoc]
  have heo1 : ∀ x, s.visited x = 0 → t1.visited x ≠ 0 → t1.cc x ≠ 0 →
      ∀ q ∈ g.adjList x, t1.cc q.2 ≠ 0 ∧ t1.cc q.2 ≤ t1.cc x := by
    intro x hx0 hx1 hcx q hq
    by_cases hxt : t.visited x = 0
    · exact po.eo x hxt hx1 hcx q hq
    · have hcx_t : t.cc x ≠ 0 := by
        intro h0
        exact hxt (po.cc_new_only x (by rw [h0]; exact hcx))
      have hee := ht.eo x hx0 hxt hcx_t q hq
      exact ⟨by rw [hccm1 q.2 hee.1]; exact hee.1,
        by rw [hccm1 q.2 hee.1, hccm1 x hcx_t]; exact hee.2⟩
  have hnd1 : ∀ x, s.visited x = 0 → t1.visited x ≠ 0 → x ≠ u →
      ∀ q ∈ g.adjList x, t1.visited q.2 ≠ 0 := by
    intro x hx0 hx1 hxu q hq
    by_cases hxt : t.visited x = 0
    · exact po.targets_vis x hxt hx1 q hq
    · exact hvm1 q.2 (ht.new_done x hx0 hxt hxu q hq)
  have hpv1 : ∀ q ∈ P ++ [p], t1.visited q.2 ≠ 0 := by
    intro q hq
    rcases List.mem_append.mp hq with hq | hq
    · exact hvm1 q.2 (ht.processed_vis q hq)
    · rw [List.mem_singleton.mp hq]
      exact h1vv
  have hcnt1 : countUnvisited g t1 < countUnvisited g s :=
    lt_of_le_of_lt (countUnvisited_le g hvm1) ht.count_lt
  by_cases hcc1 : t1.cc p.2 = 0
  · rw [if_pos hcc1]
    have hvstack1 : p.2 ∈ t1.vStack := (po.inv.stack_mem p.2).mpr ⟨h1vv, hcc1⟩
    have hwit1 := po.inv.stack_low p.2 hvstack1
    refine ⟨sccInv_lower po.inv u (t1.low p.2) hwit1, ?_, ?_, ?_, ?_, ?_, ?_, ?_, ?_, ?_, ?_,
      ⟨NL1 ++ NL, ?_, ?_⟩, ?_, ?_, ?_, ?_, ?_, ?_, ?_⟩
    · rw [lower_visited]
      exact h1vu
    · rw [lower_cc]
      exact h1cu0
    · rw [lower_time]
      exact lt_trans ht.time_mono po.time_mono
    · intro x hx
      rw [lower_visited]
      exact hvf1 x hx
    · intro x hx
      have hxu : x ≠ u := fun h => hx (h ▸ hsu)
      rw [lower_low_ne t1 _ hxu]
      exact hlf1 x hx
    · intro x hx
      rw [lower_cc]
      exact hccf1 x hx
    · intro x hx
      rw [lower_cc] at hx
      exact hcno1 x hx
    · rw [lower_numCc]
      exact hnm1
    · intro x hx
      rw [lower_cc, lower_numCc]
      exact hcf1 x hx
    · intro x hx
      rw [lower_visited] at hx ⊢
      exact hvfr1 x hx
    · rw [lower_vStack]
      exact hstack1'
    · intro x hx
      rcases List.mem_append.mp hx with hx | hx
      · exact hNL1' x hx
      · exact hNL x hx
    · intro q hq
      rw [lower_visited]
      exact hpv1 q hq
    · intro q hq
      rcases List.mem_append.mp hq with hq | hq
      · refine kfact_mono ?_ ?_ ?_ (ht.k_u q hq)
        · intro y h
          rw [lower_cc]
          exact hccm1 y h
        · intro h
          rw [lower_visited]
          exact po.vis_frame q.2 h
        · exact le_trans (lower_low_le_old t1 u _) (le_of_eq h1lu)
      · rw [List.mem_singleton.mp hq]
        refine Or.inr ⟨by rw [lower_cc]; exact hcc1, by rw [lower_visited]; exact h1vv, ?_⟩
        rw [lower_visited]
        exact le_trans (lower_low_le_val t1 u _) (po.inv.low_le p.2 h1vv)
    · intro x hx0 hx1 hxu q hq
      rw [lower_visited] at hx1 ⊢
      exact hnd1 x hx0 hx1 hxu q hq
    · intro x hx0 hx1 hcx q hq
      rw [lower_visited] at hx1
      rw [lower_cc] at hcx ⊢
      exact heo1 x hx0 hx1 hcx q hq
    · intro x hx0 hx1 hcx hxu
      rw [lower_visited] at hx1
      rw [lower_cc] at hcx
      by_cases hxt : t.visited x = 0
      · obtain ⟨hlw, htg⟩ := po.kk x hxt hx1 hcx
        refine ⟨?_, ?_⟩
        · rw [lower_low_ne t1 _ hxu]
          exact le_trans (lower_low_le_val t1 u _) hlw
        · intro q hq
          exact kfact_mono (fun y _ => congrFun (lower_cc t1 u _) y)
            (fun _ => congrFun (lower_visited t1 u _) q.2)
            (le_of_eq (lower_low_ne t1 _ hxu)) (htg q hq)
      · have hcxt : t.cc x = 0 := by
          by_contra h
          rw [hccm1 x h] at hcx
          exact h hcx
        obtain ⟨hlw, htg⟩ := ht.k_new x hx0 hxt hcxt hxu
        refine ⟨?_, ?_⟩
        · rw [lower_low_ne t1 _ hxu, po.low_frame x hxt]
          exact le_trans (le_trans (lower_low_le_old t1 u _) (le_of_eq h1lu)) hlw
        · intro q hq
          refine kfact_mono ?_ ?_ ?_ (htg q hq)
          · intro y h
            rw [lower_cc]
            exact hccm1 y h
          · intro h
            rw [lower_visited]
            exact po.vis_frame q.2 h
          · rw [lower_low_ne t1 _ hxu, po.low_frame x hxt]
    · rcases lower_low_cases t1 u (t1.low p.2) with hc | hc
      · rw [hc, h1lu]
        exact ht.lb
      · rw [hc]
        rcases po.lb with h | ⟨y, hy, hyl⟩
        · refine Or.inl ?_
          rw [po.vis_u] at h
          have hh := ht.time_mono
          omega
        · rw [hstack] at hy
          rcases List.mem_append.mp hy with hyNL | hy2
          · have hyvis : t.visited y ≠ 0 :=
              ((ht.inv.stack_mem y).mp (by rw [hstack]; exact List.mem_append.mpr (Or.inl hyNL))).1
            rcases ht.vis_fresh y hyvis with h | h
            · exact absurd (hNL y hyNL).1 h
            · exact Or.inl (le_trans (Nat.succ_le_of_lt h) hyl)
          · rcases List.mem_cons.mp hy2 with rfl | hy3
            · exact Or.inl (le_trans (le_of_eq ht.vis_u.symm) hyl)
            · have hys : s.visited y ≠ 0 := ((hinv.stack_mem y).mp hy3).1
              exact Or.inr ⟨y, hy3, by rw [← ht.vis_frame y hys]; exact hyl⟩
    · rw [countUnvisited_congr g (lower_visited t1 u _)]
      exact hcnt1
  · rw [if_neg hcc1]
    have hA := po.caseA hcc1
    refine ⟨po.inv, h1vu, h1cu0, lt_trans ht.time_mono po.time_mono, hvf1, hlf1, hccf1,
      hcno1, hnm1, hcf1, hvfr1, ⟨NL, by rw [hA.1]; exact hstack, hNL⟩, hpv1, ?_, hnd1,
      heo1, ?_, ?_, hcnt1⟩
    · intro q hq
      rcases List.mem_append.mp hq with hq | hq
      · exact kfact_mono hccm1 (fun h => po.vis_frame q.2 h) (le_of_eq h1lu) (ht.k_u q hq)
      · rw [List.mem_singleton.mp hq]
        exact Or.inl hcc1
    · intro x hx0 hx1 hcx hxu
      by_cases hxt : t.visited x = 0
      · exact absurd hcx (hA.2 x hxt hx1)
      · have hcxt : t.cc x = 0 := by
          by_contra h
          rw [hccm1 x h] at hcx
          exact h hcx
        obtain ⟨hlw, htg⟩ := ht.k_new x hx0 hxt hcxt hxu
        refine ⟨?_, ?_⟩
        · rw [h1lu, po.low_frame x hxt]
          exact hlw
        · intro q hq
          exact kfact_mono hccm1 (fun h => po.vis_frame q.2 h)
            (le_of_eq (po.low_frame x hxt)) (htg q hq)
    · rcases ht.lb with h | ⟨y, hy, hyl⟩
      · exact Or.inl (by rw [h1lu]; exact h)
      · exact Or.inr ⟨y, hy, by rw [h1lu]; exact hyl⟩

/-- The tail of `scc(u)`: applying `sccFinalize` to a state satisfying the
full-adjacency loop invariant yields the call's postcondition. -/
theorem sccFinalize_spec (g : DirectedGraph) {s : ConnState} {u : Nat} {t : ConnState}
    (hinv : SccInv g s) (hsu : s.visited u = 0)
    (ht : SccLoopInv g s u (g.adjList u) t) :
    SccPost g s u (sccFinalize u t) := by
  obtain ⟨NL, hstack, hNL⟩ := ht.stack_shape
  have hvu : t.visited u = s.time + 1 := ht.vis_u
  have hvu0 : t.visited u ≠ 0 := by rw [hvu]; exact Nat.succ_ne_zero _
  by_cases hroot : t.visited u = t.low u
  · have hu_not_NL : u ∉ NL := fun h => (hNL u h).2 rfl
    obtain ⟨hpop1, hpop2, hpop3⟩ := ccPop_spec u (t.numCc + 1) NL s.vStack t.cc hu_not_NL
    have heq : sccFinalize u t = { t with numCc := t.numCc + 1, vStack := (ccPop u (t.numCc + 1) (NL ++ u :: s.vStack) t.cc).1, cc := (ccPop u (t.numCc + 1) (NL ++ u :: s.vStack) t.cc).2 } := by
      unfold sccFinalize
      rw [if_pos hroot, hstack]
    rw [heq]
    set cc2 := (ccPop u (t.numCc + 1) (NL ++ u :: s.vStack) t.cc).2 with hcc2
    have hbatch_iff : ∀ x, (x ∈ NL ∨ x = u) ↔
        (t.visited x ≠ 0 ∧ t.cc x = 0 ∧ s.visited x = 0) := by
      intro x
      constructor
      · rintro (hx | rfl)
        · have hmem : x ∈ t.vStack := by
            rw [hstack]
            exact List.mem_append.mpr (Or.inl hx)
          have hh := (ht.inv.stack_mem x).mp hmem
          exact ⟨hh.1, hh.2, (hNL x hx).1⟩
        · exact ⟨hvu0, ht.cc_u, hsu⟩
      · rintro ⟨h1, h2, h3⟩
        have hmem : x ∈ t.vStack := (ht.inv.stack_mem x).mpr ⟨h1, h2⟩
        rw [hstack] at hmem
        rcases List.mem_append.mp hmem with hx | hx
        · exact Or.inl hx
        · rcases List.mem_cons.mp hx with rfl | hx2
          · exact Or.inr rfl
          · exact absurd h3 ((hinv.stack_mem x).mp hx2).1
    have hccle2 : ∀ x, cc2 x ≤ t.numCc + 1 := by
      intro x
      by_cases hb : x ∈ NL ∨ x = u
      · rw [hpop2 x hb]
      · push_neg at hb
        rw [hpop3 x hb.1 hb.2]
        exact le_trans (ht.inv.cc_le x) (Nat.le_succ _)
    have hccm : ∀ x, t.cc x ≠ 0 → cc2 x = t.cc x := by
      intro x hx
      by_cases hb : x ∈ NL ∨ x = u
      · exact absurd ((hbatch_iff x).mp hb).2.1 hx
      · push_neg at hb
        exact hpop3 x hb.1 hb.2
    have hccnz : ∀ x, cc2 x = 0 → t.cc x = 0 ∧ ¬(x ∈ NL ∨ x = u) := by
      intro x hx
      by_cases hb : x ∈ NL ∨ x = u
      · rw [hpop2 x hb] at hx
        exact absurd hx (Nat.succ_ne_zero _)
      · push_neg at hb
        rw [hpop3 x hb.1 hb.2] at hx
        exact ⟨hx, not_or.mpr ⟨hb.1, hb.2⟩⟩
    have hbatchcc : ∀ x, x ∈ NL ∨ x = u → cc2 x = t.numCc + 1 := hpop2
    refine ⟨⟨?_, ?_, ?_, ?_, ?_, ?_, ?_, ?_⟩, hvu, ht.time_mono, ht.vis_frame, ht.low_frame,
      ?_, ?_, le_trans ht.numCc_mono (Nat.le_succ _), ?_, ht.vis_fresh,
      ⟨[], by simpa using hpop1, by simp⟩, ?_, ?_, ?_, ?_, ?_, ?_⟩
    · exact ht.inv.low_le
    · exact ht.inv.vis_le_time
    · exact ht.inv.vis_lt
    · intro x
      show x ∈ (ccPop u (t.numCc + 1) (NL ++ u :: s.vStack) t.cc).1 ↔ _
      rw [hpop1]
      constructor
      · intro hx
        have hs := (hinv.stack_mem x).mp hx
        have hxv : t.visited x ≠ 0 := by
          rw [ht.vis_frame x hs.1]
          exact hs.1
        have hxc : t.cc x = 0 := by
          by_contra hc
          have hco := ht.cc_new_only x
          by_cases hcs : t.cc x = s.cc x
          · rw [hcs] at hc
            exact hc hs.2
          · exact hs.1 (hco hcs).1
        have hnb : ¬(x ∈ NL ∨ x = u) := by
          intro hb
          exact hs.1 ((hbatch_iff x).mp hb).2.2
        push_neg at hnb
        refine ⟨hxv, ?_⟩
        show cc2 x = 0
        rw [hpop3 x hnb.1 hnb.2]
        exact hxc
      · rintro ⟨h1, h2⟩
        obtain ⟨htc, hnb⟩ := hccnz x h2
        have hmem : x ∈ t.vStack := (ht.inv.stack_mem x).mpr ⟨h1, htc⟩
        rw [hstack] at hmem
        rcases List.mem_append.mp hmem with hx | hx
        · exact absurd (Or.inl hx) hnb
        · rcases List.mem_cons.mp hx with rfl | hx2
          · exact absurd (Or.inr rfl) hnb
          · exact hx2
    · show (ccPop u (t.numCc + 1) (NL ++ u :: s.vStack) t.cc).1.Nodup
      rw [hpop1]
      exact hinv.stack_nodup
    · exact hccle2
    · intro x hx
      by_cases hb : x ∈ NL ∨ x = u
      · exact ((hbatch_iff x).mp hb).1
      · push_neg at hb
        have hx2 : cc2 x ≠ 0 := hx
        rw [hpop3 x hb.1 hb.2] at hx2
        exact ht.inv.cc_vis x hx2
    · intro w hw
      have hw2 : w ∈ (ccPop u (t.numCc + 1) (NL ++ u :: s.vStack) t.cc).1 := hw
      rw [hpop1] at hw2
      obtain ⟨y, hy, hyl⟩ := hinv.stack_low w hw2
      have hys : s.visited y ≠ 0 := ((hinv.stack_mem y).mp hy).1
      have hws : s.visited w ≠ 0 := ((hinv.stack_mem w).mp hw2).1
      refine ⟨y, ?_, ?_⟩
      · show y ∈ (ccPop u (t.numCc + 1) (NL ++ u :: s.vStack) t.cc).1
        rw [hpop1]
        exact hy
      · show t.visited y ≤ t.low w
        rw [ht.vis_frame y hys, ht.low_frame w hws]
        exact hyl
    · intro x hx
      show cc2 x = s.cc x
      have hts : t.cc x = s.cc x := ht.cc_frame x hx
      rw [hccm x (by rw [hts]; exact hx), hts]
    · intro x hx
      have hx2 : cc2 x ≠ s.cc x := hx
      by_cases hb : x ∈ NL ∨ x = u
      · exact ((hbatch_iff x).mp hb).2.2
      · push_neg at hb
        rw [hpop3 x hb.1 hb.2] at hx2
        exact (ht.cc_new_only x hx2).1
    · intro x hx
      show cc2 x = 0 ∨ (s.numCc < cc2 x ∧ cc2 x ≤ t.numCc + 1)
      by_cases hb : x ∈ NL ∨ x = u
      · rw [hpop2 x hb]
        refine Or.inr ⟨?_, le_refl _⟩
        have := ht.numCc_mono
        omega
      · push_neg at hb
        rw [hpop3 x hb.1 hb.2]
        rcases ht.cc_fresh x hx with h | ⟨h1, h2⟩
        · exact Or.inl h
        · exact Or.inr ⟨h1, le_trans h2 (Nat.le_succ _)⟩
    · intro x hx0 hx1 q hq
      by_cases hxu : x = u
      · subst hxu
        exact ht.processed_vis q hq
      · exact ht.new_done x hx0 hx1 hxu q hq
    · intro x hx0 hx1 hcx q hq
      have hcx2 : cc2 x ≠ 0 := hcx
      show cc2 q.2 ≠ 0 ∧ cc2 q.2 ≤ cc2 x
      by_cases hbx : x ∈ NL ∨ x = u
      · rw [hbatchcc x hbx]
        have hkey : KFact t u q ∨ (∃ a, KFact t a q ∧ t.low u ≤ t.low a) := by
          rcases hbx with hxNL | rfl
          · have hxn := hNL x hxNL
            have hxprop := (hbatch_iff x).mp (Or.inl hxNL)
            obtain ⟨hlw, htg⟩ := ht.k_new x hxn.1 hxprop.1 hxprop.2.1 hxn.2
            exact Or.inr ⟨x, htg q hq, hlw⟩
          · exact Or.inl (ht.k_u q hq)
        have hkf : ∃ a, KFact t a q ∧ t.low u ≤ t.low a := by
          rcases hkey with h | h
          · exact ⟨u, h, le_refl _⟩
          · exact h
        obtain ⟨a, hkfa, hlwa⟩ := hkf
        rcases hkfa with h | ⟨h0, hvq, hl⟩
        · have hq2 : cc2 q.2 = t.cc q.2 := hccm q.2 h
          refine ⟨by rw [hq2]; exact h, ?_⟩
          rw [hq2]
          exact le_trans (ht.inv.cc_le q.2) (Nat.le_succ _)
        · have hchain : t.visited u ≤ t.visited q.2 := by
            rw [hroot]
            exact le_trans hlwa hl
          have hq2s : s.visited q.2 = 0 := by
            by_contra hs
            have hfr := ht.vis_frame q.2 hs
            have hle := hinv.vis_le_time q.2
            rw [hvu, hfr] at hchain
            omega
          have hbq : q.2 ∈ NL ∨ q.2 = u := (hbatch_iff q.2).mpr ⟨hvq, h0, hq2s⟩
          rw [hbatchcc q.2 hbq]
          exact ⟨Nat.succ_ne_zero _, le_refl _⟩
      · push_neg at hbx
        have hx2 : cc2 x = t.cc x := hpop3 x hbx.1 hbx.2
        rw [hx2] at hcx2
        have hee := ht.eo x hx0 hx1 hcx2 q hq
        refine ⟨by rw [hccm q.2 hee.1]; exact hee.1, ?_⟩
        rw [hccm q.2 hee.1, hx2]
        exact hee.2
    · intro x hx0 hx1 hcx
      exfalso
      have hcx2 : cc2 x = 0 := hcx
      obtain ⟨htc, hnb⟩ := hccnz x hcx2
      exact hnb ((hbatch_iff x).mpr ⟨hx1, htc, hx0⟩)
    · refine Or.inl ?_
      show t.visited u ≤ t.low u
      exact le_of_eq hroot
    · intro _
      refine ⟨?_, ?_⟩
      · show (ccPop u (t.numCc + 1) (NL ++ u :: s.vStack) t.cc).1 = s.vStack
        exact hpop1
      · intro x hx0 hx1
        intro hc0
        have hc02 : cc2 x = 0 := hc0
        obtain ⟨htc, hnb⟩ := hccnz x hc02
        exact hnb ((hbatch_iff x).mpr ⟨hx1, htc, hx0⟩)
    · intro h
      have h2 : cc2 u = 0 := h
      have : cc2 u ≠ 0 := by
        rw [hbatchcc u (Or.inr rfl)]
        exact Nat.succ_ne_zero _
      exact absurd h2 this
  · have heq : sccFinalize u t = t := by
      unfold sccFinalize
      rw [if_neg hroot]
    rw [heq]
    refine ⟨ht.inv, ht.vis_u, ht.time_mono, ht.vis_frame, ht.low_frame, ht.cc_frame,
      fun x hx => (ht.cc_new_only x hx).1, ht.numCc_mono, ht.cc_fresh, ht.vis_fresh,
      ⟨NL ++ [u], ?_, ?_⟩, ?_, ht.eo, ?_, ?_, ?_, fun _ => hroot⟩
    · rw [List.append_assoc, List.singleton_append]
      exact hstack
    · intro x hx
      rcases List.mem_append.mp hx with hx | hx
      · exact (hNL x hx).1
      · rw [List.mem_singleton.mp hx]
        exact hsu
    · intro x hx0 hx1 q hq
      by_cases hxu : x = u
      · subst hxu
        exact ht.processed_vis q hq
      · exact ht.new_done x hx0 hx1 hxu q hq
    · intro x hx0 hx1 hcx
      by_cases hxu : x = u
      · subst hxu
        exact ⟨le_refl _, fun q hq => ht.k_u q hq⟩
      · exact ht.k_new x hx0 hx1 hcx hxu
    · rcases ht.lb with h | ⟨y, hy, hyl⟩
      · exact Or.inl (by rw [ht.vis_u]; exact h)
      · exact Or.inr ⟨y, hy, hyl⟩
    · intro h
      exact absurd ht.cc_u h

/-- Full specification of the recursive `scc` call: with enough fuel, a call
on an unvisited vertex of a well-formed graph satisfies `SccPost`. -/
theorem sccGo_spec (g : DirectedGraph) (hwf : g.WF) :
    ∀ (fuel : Nat) (s : ConnState) (u : Nat), SccInv g s → s.visited u = 0 →
      u < g.numV → countUnvisited g s ≤ fuel → SccPost g s u (sccGo g fuel s u) := by
  intro fuel
  induction fuel with
  | zero =>
    intro s u hinv hsu hun hcount
    exfalso
    have hpos : 0 < countUnvisited g s :=
      Finset.card_pos.mpr ⟨u, Finset.mem_filter.mpr ⟨Finset.mem_range.mpr hun, hsu⟩⟩
    omega
  | succ fuel ih =>
    intro s u hinv hsu hun hcount
    simp only [sccGo]
    apply sccFinalize_spec g hinv hsu
    have hfold : ∀ (R P : List (Nat × Nat)), g.adjList u = P ++ R →
        ∀ t, SccLoopInv g s u P t →
          SccLoopInv g s u (P ++ R) (R.foldl (sccStep (sccGo g fuel) u) t) := by
      intro R
      induction R with
      | nil =>
        intro P hPR t ht
        simpa using ht
      | cons p R ihR =>
        intro P hPR t ht
        have hp : p ∈ g.adjList u := by
          rw [hPR]
          exact List.mem_append.mpr (Or.inr (List.mem_cons_self p R))
        have hstep : SccLoopInv g s u (P ++ [p]) (sccStep (sccGo g fuel) u t p) := by
          by_cases hv : t.visited p.2 = 0
          · have heq : sccStep (sccGo g fuel) u t p =
                if (sccGo g fuel t p.2).cc p.2 = 0 then
                  lower (sccGo g fuel t p.2) u ((sccGo g fuel t p.2).low p.2)
                else sccGo g fuel t p.2 := by
              unfold sccStep
              rw [if_pos hv]
            rw [heq]
            have hvlt : p.2 < g.numV := DirectedGraph.adj_snd_lt hwf hp
            have hcnt : countUnvisited g t ≤ fuel := by
              have := ht.count_lt
              omega
            exact sccLoopInv_rec_step g hinv hsu ht hv (ih t p.2 ht.inv hv hvlt hcnt)
          · have heq : sccStep (sccGo g fuel) u t p =
                if t.cc p.2 = 0 then lower t u (t.low p.2) else t := by
              unfold sccStep
              rw [if_neg hv]
            rw [heq]
            exact sccLoopInv_vis_step g hinv hsu ht hv
        have hrest := ihR (P ++ [p]) (by rw [hPR, List.append_assoc, List.singleton_append]) _ hstep
        rw [List.append_assoc, List.singleton_append] at hrest
        exact hrest
    have h0 := sccLoopInv_init g hinv hsu hun
    have hres := hfold (g.adjList u) [] rfl (visit s u) h0
    simpa using hres

/-- The constructor's state before any root is processed. -/
theorem rootInv_init (g : DirectedGraph) : RootInv g [] initState := by
  refine ⟨⟨?_, ?_, ?_, ?_, ?_, ?_, ?_, ?_⟩, rfl, ?_, ?_⟩
  · intro x hx
    exact absurd rfl hx
  · intro x
    exact le_refl 0
  · intro x hx
    exact absurd rfl hx
  · intro x
    simp [initState]
  · exact List.nodup_nil
  · intro x
    exact le_refl 0
  · intro x hx
    exact absurd rfl hx
  · intro w hw
    exact absurd hw (List.not_mem_nil w)
  · intro x hx
    exact absurd hx (List.not_mem_nil x)
  · intro x hx
    exact absurd rfl hx

/-- One iteration of the constructor loop preserves the root invariant. -/
theorem rootInv_step (g : DirectedGraph) (hwf : g.WF) {pr : List Nat} {s : ConnState}
    (hri : RootInv g pr s) (u : Nat) (hun : u < g.numV) :
    RootInv g (pr ++ [u]) (ConnectivityDirectedGraph.rootStep g s u) := by
  unfold ConnectivityDirectedGraph.rootStep
  by_cases hv : s.visited u = 0
  · rw [if_pos hv]
    have po := sccGo_spec g hwf g.numV s u hri.inv hv hun (countUnvisited_le_numV g s)
    have hvu' : (sccGo g g.numV s u).visited u ≠ 0 := by
      rw [po.vis_u]
      exact Nat.succ_ne_zero _
    have hccu : (sccGo g g.numV s u).cc u ≠ 0 := by
      intro hc
      have hne := po.caseB hc
      rcases po.lb with h | ⟨y, hy, _⟩
      · exact hne (le_antisymm h (po.inv.low_le u hvu'))
      · rw [hri.stack_nil] at hy
        exact absurd hy (List.not_mem_nil y)
    have hA := po.caseA hccu
    refine ⟨po.inv, ?_, ?_, ?_⟩
    · rw [hA.1]
      exact hri.stack_nil
    · intro x hx
      rcases List.mem_append.mp hx with hx | hx
      · have hvx := hri.visited_all x hx
        rw [po.vis_frame x hvx]
        exact hvx
      · rw [List.mem_singleton.mp hx]
        exact hvu'
    · intro x hx
      by_cases hxs : s.visited x = 0
      · have hcx := hA.2 x hxs hx
        exact ⟨hcx, po.eo x hxs hx hcx⟩
      · obtain ⟨hc1, hc2⟩ := hri.eo_all x hxs
        refine ⟨by rw [po.cc_frame x hc1]; exact hc1, ?_⟩
        intro q hq
        obtain ⟨hq1, hq2⟩ := hc2 q hq
        rw [po.cc_frame x hc1, po.cc_frame q.2 hq1]
        exact ⟨hq1, hq2⟩
  · rw [if_neg hv]
    refine ⟨hri.inv, hri.stack_nil, ?_, hri.eo_all⟩
    intro x hx
    rcases List.mem_append.mp hx with hx | hx
    · exact hri.visited_all x hx
    · rw [List.mem_singleton.mp hx]
      exact hv

/-- After the whole constructor loop, the root invariant holds for the full
vertex range. -/
theorem rootInv_new (g : DirectedGraph) (hwf : g.WF) :
    RootInv g (List.range g.numV) (ConnectivityDirectedGraph.new g) := by
  unfold ConnectivityDirectedGraph.new
  have key : ∀ (l : List Nat), (∀ u ∈ l, u < g.numV) → ∀ (pr : List Nat) (s : ConnState),
      RootInv g pr s →
      RootInv g (pr ++ l) (l.foldl (ConnectivityDirectedGraph.rootStep g) s) := by
    intro l
    induction l with
    | nil =>
      intro _ pr s h
      simpa using h
    | cons a l ihl =>
      intro hlt pr s h
      have hstep := rootInv_step g hwf h a (hlt a (List.mem_cons_self a l))
      have hres := ihl (fun x hx => hlt x (List.mem_cons_of_mem a hx)) (pr ++ [a]) _ hstep
      rw [List.append_assoc, List.singleton_append] at hres
      exact hres
  have hres := key (List.range g.numV) (fun x hx => List.mem_range.mp hx) [] initState
    (rootInv_init g)
  simpa using hres

/-- Final component-ordering fact: after `ConnectivityDirectedGraph::new`,
ids never increase along an edge (the target finishes no later). -/
theorem dnew_edge_le (g : DirectedGraph) (hwf : g.WF) {u v : Nat}
    (huv : (u, v) ∈ g.edges) :
    (ConnectivityDirectedGraph.new g).cc v ≤ (ConnectivityDirectedGraph.new g).cc u ∧
    (ConnectivityDirectedGraph.new g).cc v ≠ 0 ∧
    (ConnectivityDirectedGraph.new g).cc u ≠ 0 := by
  have hri := rootInv_new g hwf
  have hu_lt : u < g.numV := (hwf _ huv).1
  have hvis : (ConnectivityDirectedGraph.new g).visited u ≠ 0 :=
    hri.visited_all u (List.mem_range.mpr hu_lt)
  obtain ⟨p, hp, hp2⟩ := DirectedGraph.mem_edges_adj huv
  obtain ⟨hcu, htargets⟩ := hri.eo_all u hvis
  have hq := htargets p hp
  rw [hp2] at hq
  exact ⟨hq.2, hq.1, hcu⟩

/-- Claim C2 (corrected).  For every well-formed directed graph and every edge
u→v, the run of `ConnectivityDirectedGraph::new` yields `cc[v] ≤ cc[u]`; in
particular when the endpoints lie in different strongly connected components
(`cc[u] ≠ cc[v]`) the ids satisfy `cc[v] < cc[u]` — the reverse of the
inequality stated in the claim. -/
theorem c2_amended_reverse_topological (g : DirectedGraph) (hwf : g.WF) (u v : Nat)
    (huv : (u, v) ∈ g.edges) :
    (ConnectivityDirectedGraph.new g).cc v ≤ (ConnectivityDirectedGraph.new g).cc u ∧
    ((ConnectivityDirectedGraph.new g).cc u ≠ (ConnectivityDirectedGraph.new g).cc v →
      (ConnectivityDirectedGraph.new g).cc v < (ConnectivityDirectedGraph.new g).cc u) := by
  obtain ⟨hle, -, -⟩ := dnew_edge_le g hwf huv
  exact ⟨hle, fun hne => lt_of_le_of_ne hle (fun he => hne he.symm)⟩

/-- Witness for the amended claim C2: on the one-edge digraph the theorem
applies and yields `cc[1] < cc[0]`. -/
theorem c2_amended_witness :
    (ConnectivityDirectedGraph.new singleEdgeDigraph).cc 1 ≤
      (ConnectivityDirectedGraph.new singleEdgeDigraph).cc 0 ∧
    ((ConnectivityDirectedGraph.new singleEdgeDigraph).cc 0 ≠
        (ConnectivityDirectedGraph.new singleEdgeDigraph).cc 1 →
      (ConnectivityDirectedGraph.new singleEdgeDigraph).cc 1 <
        (ConnectivityDirectedGraph.new singleEdgeDigraph).cc 0) :=
  c2_amended_reverse_topological singleEdgeDigraph
    (by
      intro p hp
      have hp1 : p = (0, 1) := by simpa [singleEdgeDigraph] using hp
      rw [hp1]
      decide) 0 1 (by decide)

/-- Entering `scc(u)` on an acyclic graph: the DAG loop invariant at start. -/
theorem sccDagLoopInv_init (g : DirectedGraph) {s : ConnState} {u : Nat}
    (hinv : SccInv g s) (hsu : s.visited u = 0) (hun : u < g.numV) :
    SccDagLoopInv g s u [] (visit s u) := by
  have base := sccLoopInv_init g hinv hsu hun
  exact ⟨base.inv, base.vis_u, visit_low_self s u, base.cc_u, base.time_mono, base.vis_frame,
    base.low_frame, base.cc_frame, base.cc_new_only, base.numCc_mono, base.cc_fresh,
    base.vis_fresh, rfl, fun p hp => absurd hp (List.not_mem_nil p),
    fun x hx0 hx hxu => absurd (base.vis_frame x (fun h => by
      have hxu2 : x ≠ u := hxu
      rw [visit_visited_ne s hxu2] at hx
      exact hx h) ▸ hx0) (by
      intro hcontra
      have hxu2 : x ≠ u := hxu
      rw [visit_visited_ne s hxu2] at hx
      exact hx hx0), base.count_lt⟩

/-- One `scc` loop step on an acyclic graph preserves the DAG loop invariant:
an unvisited neighbor is recursed into and comes back finalized; a visited
neighbor is already finalized (a stack neighbor would close a cycle). -/
theorem sccDagLoopInv_step (g : DirectedGraph) (hacy : g.Acyclic)
    {s : ConnState} {u : Nat}
    (hinv : SccInv g s) (hsu : s.visited u = 0)
    (hreach : ∀ w ∈ s.vStack, Relation.ReflTransGen g.edgeRel w u)
    {P : List (Nat × Nat)} {p : Nat × Nat} (hp : p ∈ g.adjList u)
    {t : ConnState} (ht : SccDagLoopInv g s u P t) :
    (t.visited p.2 = 0 →
      ∀ t1, SccDagPost g t p.2 t1 →
        SccDagLoopInv g s u (P ++ [p]) (if t1.cc p.2 = 0 then lower t1 u (t1.low p.2) else t1)) ∧
    (t.visited p.2 ≠ 0 →
      SccDagLoopInv g s u (P ++ [p]) (if t.cc p.2 = 0 then lower t u (t.low p.2) else t)) := by
  have hedge : g.edgeRel u p.2 := DirectedGraph.adj_mem_edges hp
  have hvu : t.visited u ≠ 0 := by rw [ht.vis_u]; exact Nat.succ_ne_zero _
  constructor
  · intro hv t1 po
    have hv1v : t1.visited p.2 ≠ 0 := by rw [po.vis_u]; exact Nat.succ_ne_zero _
    have hccv : t1.cc p.2 ≠ 0 := po.all_done p.2 hv hv1v
    rw [if_neg hccv]
    have hsvt : ∀ x, s.visited x ≠ 0 → t.visited x ≠ 0 := fun x hx => by
      rw [ht.vis_frame x hx]; exact hx
    have hvm1 : ∀ x, t.visited x ≠ 0 → t1.visited x ≠ 0 := fun x hx => by
      rw [po.vis_frame x hx]; exact hx
    have hccm1 : ∀ x, t.cc x ≠ 0 → t1.cc x = t.cc x := po.cc_frame
    refine ⟨po.inv, ?_, ?_, ?_, ?_, ?_, ?_, ?_, ?_, ?_, ?_, ?_, ?_, ?_, ?_, ?_⟩
    · rw [po.vis_frame u hvu]
      exact ht.vis_u
    · rw [po.low_frame u hvu]
      exact ht.low_u
    · have h1cu : t1.cc u = t.cc u := by
        by_contra h
        exact hvu (po.cc_new_only u h)
      rw [h1cu]
      exact ht.cc_u
    · exact lt_trans ht.time_mono po.time_mono
    · intro x hx
      rw [po.vis_frame x (hsvt x hx), ht.vis_frame x hx]
    · intro x hx
      rw [po.low_frame x (hsvt x hx), ht.low_frame x hx]
    · intro x hx
      rw [hccm1 x (by rw [ht.cc_frame x hx]; exact hx), ht.cc_frame x hx]
    · intro x hx
      by_cases h : t1.cc x = t.cc x
      · rw [h] at hx
        exact ht.cc_new_only x hx
      · have h2 := po.cc_new_only x h
        have hs0 : s.visited x = 0 := by
          by_contra hs
          exact hsvt x hs h2
        exact ⟨hs0, fun he => hvu (he ▸ h2)⟩
    · exact le_trans ht.numCc_mono po.numCc_mono
    · intro x hx
      rcases ht.cc_fresh x hx with h | ⟨h1, h2⟩
      · rcases po.cc_fresh x h with h' | ⟨h1', h2'⟩
        · exact Or.inl h'
        · exact Or.inr ⟨lt_of_le_of_lt ht.numCc_mono h1', h2'⟩
      · have heq : t1.cc x = t.cc x := hccm1 x (by omega)
        rw [heq]
        exact Or.inr ⟨h1, le_trans h2 po.numCc_mono⟩
    · intro x hx
      rcases po.vis_fresh x hx with h | h
      · rcases ht.vis_fresh x h with h2 | h2
        · exact Or.inl h2
        · exact Or.inr (by rw [po.vis_frame x h]; exact h2)
      · exact Or.inr (lt_trans ht.time_mono h)
    · rw [po.stack_eq]
      exact ht.stack_eq
    · intro q hq
      rcases List.mem_append.mp hq with hq | hq
      · exact (by rw [hccm1 q.2 (ht.processed_cc q hq)]; exact ht.processed_cc q hq)
      · rw [List.mem_singleton.mp hq]
        exact hccv
    · intro x hx0 hx1 hxu
      by_cases hxt : t.visited x = 0
      · refine ⟨po.all_done x hxt hx1, ?_⟩
        exact po.eo_strict x hxt hx1
      · obtain ⟨hc1, hc2⟩ := ht.done_strict x hx0 hxt hxu
        refine ⟨by rw [hccm1 x hc1]; exact hc1, ?_⟩
        intro q hq
        obtain ⟨hq1, hq2⟩ := hc2 q hq
        rw [hccm1 q.2 hq1, hccm1 x hc1]
        exact ⟨hq1, hq2⟩
    · exact lt_of_le_of_lt (countUnvisited_le g hvm1) ht.count_lt
  · intro hv
    have hccv : t.cc p.2 ≠ 0 := by
      intro hc
      have hstk : p.2 ∈ t.vStack := (ht.inv.stack_mem p.2).mpr ⟨hv, hc⟩
      rw [ht.stack_eq] at hstk
      rcases List.mem_cons.mp hstk with he | hstk2
      · exact hacy u (Relation.TransGen.single (he ▸ hedge))
      · exact hacy u (Relation.TransGen.head' hedge (hreach p.2 hstk2))
    rw [if_neg hccv]
    refine ⟨ht.inv, ht.vis_u, ht.low_u, ht.cc_u, ht.time_mono, ht.vis_frame, ht.low_frame,
      ht.cc_frame, ht.cc_new_only, ht.numCc_mono, ht.cc_fresh, ht.vis_fresh, ht.stack_eq,
      ?_, ht.done_strict, ht.count_lt⟩
    intro q hq
    rcases List.mem_append.mp hq with hq | hq
    · exact ht.processed_cc q hq
    · rw [List.mem_singleton.mp hq]
      exact hccv

/-- The tail of `scc(u)` on an acyclic graph: `u` itself is finalized as a
singleton batch with a fresh, strictly largest id. -/
theorem sccDagFinalize_spec (g : DirectedGraph) {s : ConnState} {u : Nat} {t : ConnState}
    (hinv : SccInv g s) (hsu : s.visited u = 0)
    (ht : SccDagLoopInv g s u (g.adjList u) t) :
    SccDagPost g s u (sccFinalize u t) := by
  have hroot : t.visited u = t.low u := by rw [ht.vis_u, ht.low_u]
  obtain ⟨hpop1, hpop2, hpop3⟩ := ccPop_spec u (t.numCc + 1) [] s.vStack t.cc (List.not_mem_nil u)
  have hpop1' : (ccPop u (t.numCc + 1) (u :: s.vStack) t.cc).1 = s.vStack := hpop1
  have hpopu : (ccPop u (t.numCc + 1) (u :: s.vStack) t.cc).2 u = t.numCc + 1 :=
    hpop2 u (Or.inr rfl)
  have hkeep : ∀ x, x ≠ u → (ccPop u (t.numCc + 1) (u :: s.vStack) t.cc).2 x = t.cc x :=
    fun x hx => hpop3 x (List.not_mem_nil x) hx
  have heq : sccFinalize u t = { t with numCc := t.numCc + 1, vStack := (ccPop u (t.numCc + 1) (u :: s.vStack) t.cc).1, cc := (ccPop u (t.numCc + 1) (u :: s.vStack) t.cc).2 } := by
    unfold sccFinalize
    rw [if_pos hroot, ht.stack_eq]
  rw [heq]
  set cc2 := (ccPop u (t.numCc + 1) (u :: s.vStack) t.cc).2 with hcc2
  have hvu : t.visited u ≠ 0 := by rw [ht.vis_u]; exact Nat.succ_ne_zero _
  have htc_s : ∀ x, s.visited x ≠ 0 → t.cc x = s.cc x := by
    intro x hx
    by_cases h : t.cc x = s.cc x
    · exact h
    · exact absurd (ht.cc_new_only x h).1 (fun h0 => hx h0)
  refine ⟨⟨?_, ?_, ?_, ?_, ?_, ?_, ?_, ?_⟩, ht.vis_u, ht.time_mono, ht.vis_frame, ht.low_frame,
    ?_, ?_, le_trans ht.numCc_mono (Nat.le_succ _), ?_, ht.vis_fresh, hpop1', ?_, ?_⟩
  · exact ht.inv.low_le
  · exact ht.inv.vis_le_time
  · exact ht.inv.vis_lt
  · intro x
    show x ∈ (ccPop u (t.numCc + 1) (u :: s.vStack) t.cc).1 ↔ _
    rw [hpop1']
    constructor
    · intro hx
      have hs := (hinv.stack_mem x).mp hx
      have hxu : x ≠ u := fun h => hs.1 (h ▸ hsu)
      refine ⟨by rw [ht.vis_frame x hs.1]; exact hs.1, ?_⟩
      show cc2 x = 0
      rw [hkeep x hxu, htc_s x hs.1]
      exact hs.2
    · rintro ⟨h1, h2⟩
      have h2' : cc2 x = 0 := h2
      have hxu : x ≠ u := by
        intro h
        rw [h, hpopu] at h2'
        exact Nat.succ_ne_zero _ h2'
      have htcx : t.cc x = 0 := by
        rw [← hkeep x hxu]
        exact h2'
      have hmem : x ∈ t.vStack := (ht.inv.stack_mem x).mpr ⟨h1, htcx⟩
      rw [ht.stack_eq] at hmem
      rcases List.mem_cons.mp hmem with h | h
      · exact absurd h hxu
      · exact h
  · show (ccPop u (t.numCc + 1) (u :: s.vStack) t.cc).1.Nodup
    rw [hpop1']
    exact hinv.stack_nodup
  · intro x
    show cc2 x ≤ t.numCc + 1
    by_cases hxu : x = u
    · rw [hxu, hpopu]
    · rw [hkeep x hxu]
      exact le_trans (ht.inv.cc_le x) (Nat.le_succ _)
  · intro x hx
    have hx' : cc2 x ≠ 0 := hx
    by_cases hxu : x = u
    · rw [hxu]
      exact hvu
    · rw [hkeep x hxu] at hx'
      exact ht.inv.cc_vis x hx'
  · intro w hw
    have hw2 : w ∈ (ccPop u (t.numCc + 1) (u :: s.vStack) t.cc).1 := hw
    rw [hpop1'] at hw2
    obtain ⟨y, hy, hyl⟩ := hinv.stack_low w hw2
    have hys : s.visited y ≠ 0 := ((hinv.stack_mem y).mp hy).1
    have hws : s.visited w ≠ 0 := ((hinv.stack_mem w).mp hw2).1
    refine ⟨y, ?_, ?_⟩
    · show y ∈ (ccPop u (t.numCc + 1) (u :: s.vStack) t.cc).1
      rw [hpop1']
      exact hy
    · show t.visited y ≤ t.low w
      rw [ht.vis_frame y hys, ht.low_frame w hws]
      exact hyl
  · intro x hx
    show cc2 x = s.cc x
    have hxu : x ≠ u := by
      intro h
      exact hinv.cc_vis u (h ▸ hx) hsu
    rw [hkeep x hxu, htc_s x (hinv.cc_vis x hx)]
  · intro x hx
    have hx' : cc2 x ≠ s.cc x := hx
    by_cases hxu : x = u
    · rw [hxu]
      exact hsu
    · rw [hkeep x hxu] at hx'
      exact (ht.cc_new_only x hx').1
  · intro x hx
    show cc2 x = 0 ∨ (s.numCc < cc2 x ∧ cc2 x ≤ t.numCc + 1)
    by_cases hxu : x = u
    · rw [hxu, hpopu]
      refine Or.inr ⟨?_, le_refl _⟩
      have := ht.numCc_mono
      omega
    · rw [hkeep x hxu]
      rcases ht.cc_fresh x hx with h | ⟨h1, h2⟩
      · exact Or.inl h
      · exact Or.inr ⟨h1, le_trans h2 (Nat.le_succ _)⟩
  · intro x hx0 hx1
    show cc2 x ≠ 0
    by_cases hxu : x = u
    · rw [hxu, hpopu]
      exact Nat.succ_ne_zero _
    · rw [hkeep x hxu]
      exact (ht.done_strict x hx0 hx1 hxu).1
  · intro x hx0 hx1 q hq
    show cc2 q.2 ≠ 0 ∧ cc2 q.2 < cc2 x
    by_cases hxu : x = u
    · have hqc := ht.processed_cc q (by rw [← hxu]; exact hq)
      have hq2u : q.2 ≠ u := fun h => hqc (by rw [h]; exact ht.cc_u)
      rw [hxu, hpopu, hkeep q.2 hq2u]
      exact ⟨hqc, lt_of_le_of_lt (ht.inv.cc_le q.2) (Nat.lt_succ_self _)⟩
    · obtain ⟨hq1, hq2⟩ := (ht.done_strict x hx0 hx1 hxu).2 q hq
      have hq2u : q.2 ≠ u := fun h => hq1 (by rw [h]; exact ht.cc_u)
      rw [hkeep q.2 hq2u, hkeep x hxu]
      exact ⟨hq1, hq2⟩

/-- Full specification of `scc` on an acyclic graph: the call finalizes its
whole subtree with strictly decreasing ids along edges. -/
theorem sccDagGo_spec (g : DirectedGraph) (hwf : g.WF) (hacy : g.Acyclic) :
    ∀ (fuel : Nat) (s : ConnState) (u : Nat), SccInv g s →
      (∀ w ∈ s.vStack, Relation.ReflTransGen g.edgeRel w u) →
      s.visited u = 0 → u < g.numV → countUnvisited g s ≤ fuel →
      SccDagPost g s u (sccGo g fuel s u) := by
  intro fuel
  induction fuel with
  | zero =>
    intro s u hinv hreach hsu hun hcount
    exfalso
    have hpos : 0 < countUnvisited g s :=
      Finset.card_pos.mpr ⟨u, Finset.mem_filter.mpr ⟨Finset.mem_range.mpr hun, hsu⟩⟩
    omega
  | succ fuel ih =>
    intro s u hinv hreach hsu hun hcount
    simp only [sccGo]
    apply sccDagFinalize_spec g hinv hsu
    have hfold : ∀ (R P : List (Nat × Nat)), g.adjList u = P ++ R →
        ∀ t, SccDagLoopInv g s u P t →
          SccDagLoopInv g s u (P ++ R) (R.foldl (sccStep (sccGo g fuel) u) t) := by
      intro R
      induction R with
      | nil =>
        intro P hPR t ht
        simpa using ht
      | cons p R ihR =>
        intro P hPR t ht
        have hp : p ∈ g.adjList u := by
          rw [hPR]
          exact List.mem_append.mpr (Or.inr (List.mem_cons_self p R))
        have hedge : g.edgeRel u p.2 := DirectedGraph.adj_mem_edges hp
        have hstep : SccDagLoopInv g s u (P ++ [p]) (sccStep (sccGo g fuel) u t p) := by
          by_cases hv : t.visited p.2 = 0
          · have heq : sccStep (sccGo g fuel) u t p =
                if (sccGo g fuel t p.2).cc p.2 = 0 then
                  lower (sccGo g fuel t p.2) u ((sccGo g fuel t p.2).low p.2)
                else sccGo g fuel t p.2 := by
              unfold sccStep
              rw [if_pos hv]
            rw [heq]
            have hvlt : p.2 < g.numV := DirectedGraph.adj_snd_lt hwf hp
            have hcnt : countUnvisited g t ≤ fuel := by
              have := ht.count_lt
              omega
            have hreach_child : ∀ w ∈ t.vStack, Relation.ReflTransGen g.edgeRel w p.2 := by
              intro w hw
              rw [ht.stack_eq] at hw
              rcases List.mem_cons.mp hw with rfl | hw2
              · exact Relation.ReflTransGen.single hedge
              · exact Relation.ReflTransGen.tail (hreach w hw2) hedge
            exact (sccDagLoopInv_step g hacy hinv hsu hreach hp ht).1 hv _
              (ih t p.2 ht.inv hreach_child hv hvlt hcnt)
          · have heq : sccStep (sccGo g fuel) u t p =
                if t.cc p.2 = 0 then lower t u (t.low p.2) else t := by
              unfold sccStep
              rw [if_neg hv]
            rw [heq]
            exact (sccDagLoopInv_step g hacy hinv hsu hreach hp ht).2 hv
        have hrest := ihR (P ++ [p]) (by rw [hPR, List.append_assoc, List.singleton_append]) _ hstep
        rw [List.append_assoc, List.singleton_append] at hrest
        exact hrest
    have h0 := sccDagLoopInv_init g hinv hsu hun
    have hres := hfold (g.adjList u) [] rfl (visit s u) h0
    simpa using hres

/-- The acyclic root-loop invariant holds initially. -/
theorem dagRootInv_init (g : DirectedGraph) : DagRootInv g [] initState := by
  have base := rootInv_init g
  exact ⟨base.inv, base.stack_nil, base.visited_all, fun x hx => absurd rfl hx⟩

/-- One iteration of the constructor loop preserves the acyclic root-loop
invariant. -/
theorem dagRootInv_step (g : DirectedGraph) (hwf : g.WF) (hacy : g.Acyclic)
    {pr : List Nat} {s : ConnState} (hri : DagRootInv g pr s) (u : Nat) (hun : u < g.numV) :
    DagRootInv g (pr ++ [u]) (ConnectivityDirectedGraph.rootStep g s u) := by
  unfold ConnectivityDirectedGraph.rootStep
  by_cases hv : s.visited u = 0
  · rw [if_pos hv]
    have hreach : ∀ w ∈ s.vStack, Relation.ReflTransGen g.edgeRel w u := by
      rw [hri.stack_nil]
      intro w hw
      exact absurd hw (List.not_mem_nil w)
    have po := sccDagGo_spec g hwf hacy g.numV s u hri.inv hreach hv hun
      (countUnvisited_le_numV g s)
    refine ⟨po.inv, ?_, ?_, ?_⟩
    · rw [po.stack_eq]
      exact hri.stack_nil
    · intro x hx
      rcases List.mem_append.mp hx with hx | hx
      · have hvx := hri.visited_all x hx
        rw [po.vis_frame x hvx]
        exact hvx
      · rw [List.mem_singleton.mp hx, po.vis_u]
        exact Nat.succ_ne_zero _
    · intro x hx
      by_cases hxs : s.visited x = 0
      · exact ⟨po.all_done x hxs hx, po.eo_strict x hxs hx⟩
      · obtain ⟨hc1, hc2⟩ := hri.eo_all x hxs
        refine ⟨by rw [po.cc_frame x hc1]; exact hc1, ?_⟩
        intro q hq
        obtain ⟨hq1, hq2⟩ := hc2 q hq
        rw [po.cc_frame x hc1, po.cc_frame q.2 hq1]
        exact ⟨hq1, hq2⟩
  · rw [if_neg hv]
    refine ⟨hri.inv, hri.stack_nil, ?_, hri.eo_all⟩
    intro x hx
    rcases List.mem_append.mp hx with hx | hx
    · exact hri.visited_all x hx
    · rw [List.mem_singleton.mp hx]
      exact hv

/-- After the whole constructor loop on an acyclic graph. -/
theorem dagRootInv_new (g : DirectedGraph) (hwf : g.WF) (hacy : g.Acyclic) :
    DagRootInv g (List.range g.numV) (ConnectivityDirectedGraph.new g) := by
  unfold ConnectivityDirectedGraph.new
  have key : ∀ (l : List Nat), (∀ u ∈ l, u < g.numV) → ∀ (pr : List Nat) (s : ConnState),
      DagRootInv g pr s →
      DagRootInv g (pr ++ l) (l.foldl (ConnectivityDirectedGraph.rootStep g) s) := by
    intro l
    induction l with
    | nil =>
      intro _ pr s h
      simpa using h
    | cons a l ihl =>
      intro hlt pr s h
      have hstep := dagRootInv_step g hwf hacy h a (hlt a (List.mem_cons_self a l))
      have hres := ihl (fun x hx => hlt x (List.mem_cons_of_mem a hx)) (pr ++ [a]) _ hstep
      rw [List.append_assoc, List.singleton_append] at hres
      exact hres
  have hres := key (List.range g.numV) (fun x hx => List.mem_range.mp hx) [] initState
    (dagRootInv_init g)
  simpa using hres

/-- On an acyclic graph, ids strictly decrease along every edge, and all ids
are nonzero and bounded by `num_cc`. -/
theorem dnew_edge_lt (g : DirectedGraph) (hwf : g.WF) (hacy : g.Acyclic) {u v : Nat}
    (huv : (u, v) ∈ g.edges) :
    (ConnectivityDirectedGraph.new g).cc v < (ConnectivityDirectedGraph.new g).cc u ∧
    (ConnectivityDirectedGraph.new g).cc v ≠ 0 ∧
    (ConnectivityDirectedGraph.new g).cc u ≤ (ConnectivityDirectedGraph.new g).numCc := by
  have hri := dagRootInv_new g hwf hacy
  have hu_lt : u < g.numV := (hwf _ huv).1
  have hvis : (ConnectivityDirectedGraph.new g).visited u ≠ 0 :=
    hri.visited_all u (List.mem_range.mpr hu_lt)
  obtain ⟨p, hp, hp2⟩ := DirectedGraph.mem_edges_adj huv
  obtain ⟨hcu, htargets⟩ := hri.eo_all u hvis
  have hq := htargets p hp
  rw [hp2] at hq
  exact ⟨hq.2, hq.1, hri.inv.cc_le u⟩

/-- Claim C3 (confirmed).  For every well-formed directed acyclic graph, the
vertex sequence returned by `topological_sort` places the source endpoint of
every edge at an earlier position than its target endpoint. -/
theorem c3_topological_sort_valid (g : DirectedGraph) (hwf : g.WF) (hacy : g.Acyclic)
    (u v : Nat) (huv : (u, v) ∈ g.edges) :
    (ConnectivityDirectedGraph.topological_sort g (ConnectivityDirectedGraph.new g)).indexOf u <
      (ConnectivityDirectedGraph.topological_sort g (ConnectivityDirectedGraph.new g)).indexOf v := by
  obtain ⟨hlt, hvnz, hule⟩ := dnew_edge_lt g hwf hacy huv
  set c := ConnectivityDirectedGraph.new g with hc
  have hkey : c.numCc - c.cc u < c.numCc - c.cc v := by omega
  have hperm : (ConnectivityDirectedGraph.topological_sort g c).Perm (List.range g.numV) :=
    List.mergeSort_perm _ _
  set l := ConnectivityDirectedGraph.topological_sort g c with hldef
  have hu_lt : u < g.numV := (hwf _ huv).1
  have hv_lt : v < g.numV := (hwf _ huv).2
  have hu_mem : u ∈ l := hperm.mem_iff.mpr (List.mem_range.mpr hu_lt)
  have hv_mem : v ∈ l := hperm.mem_iff.mpr (List.mem_range.mpr hv_lt)
  have hsorted : List.Pairwise
      (fun a b => (decide (c.numCc - c.cc a ≤ c.numCc - c.cc b)) = true) l := by
    apply List.sorted_mergeSort
    · intro a b d hab hbd
      rw [decide_eq_true_eq] at hab hbd ⊢
      omega
    · intro a b
      rw [Bool.or_eq_true, decide_eq_true_eq, decide_eq_true_eq]
      omega
  have hi : l.indexOf u < l.length := List.indexOf_lt_length.mpr hu_mem
  have hj : l.indexOf v < l.length := List.indexOf_lt_length.mpr hv_mem
  by_contra hcon
  push_neg at hcon
  have hne : u ≠ v := by
    intro h
    rw [h] at hlt
    exact lt_irrefl _ hlt
  have hne_idx : l.indexOf v ≠ l.indexOf u := by
    intro h
    exact hne ((List.indexOf_inj hv_mem hu_mem).mp h).symm
  have hjlt : l.indexOf v < l.indexOf u := lt_of_le_of_ne hcon hne_idx
  have hrel := List.pairwise_iff_get.mp hsorted ⟨l.indexOf v, hj⟩ ⟨l.indexOf u, hi⟩
    (Fin.mk_lt_mk.mpr hjlt)
  rw [List.indexOf_get hj, List.indexOf_get hi, decide_eq_true_eq] at hrel
  omega

/-- Witness for claim C3: on the one-edge digraph 0→1, vertex 0 is placed
before vertex 1 by `topological_sort`. -/
theorem c3_topological_sort_valid_witness :
    (ConnectivityDirectedGraph.topological_sort singleEdgeDigraph
        (ConnectivityDirectedGraph.new singleEdgeDigraph)).indexOf 0 <
      (ConnectivityDirectedGraph.topological_sort singleEdgeDigraph
        (ConnectivityDirectedGraph.new singleEdgeDigraph)).indexOf 1 :=
  c3_topological_sort_valid singleEdgeDigraph
    (by
      intro p hp
      have hp1 : p = (0, 1) := by simpa [singleEdgeDigraph] using hp
      rw [hp1]
      decide)
    (by
      intro w hw
      have hedge : ∀ a b, singleEdgeDigraph.edgeRel a b → a = 0 ∧ b = 1 := by
        intro a b h
        simpa [singleEdgeDigraph, DirectedGraph.edgeRel] using h
      obtain ⟨b, hb, hbw⟩ := Relation.TransGen.head'_iff.mp hw
      obtain ⟨hb0, hb1⟩ := hedge w b hb
      rcases Relation.ReflTransGen.cases_head hbw with he | ⟨z, hz, -⟩
      · omega
      · have hz0 := (hedge b z hz).1
        omega)
    0 1 (by decide)
